import Mathlib

/-!
# MemoryManager: block list, placement strategies, allocate and free

A shallow embedding of `src/MemoryManager.cpp` / `src/MemoryManager.h`.

* The doubly linked list hanging off `blocksHead` is a `List MemoryBlock` in
  address order; a node together with its `prev` and `next` links is a position
  in that list, written as the blocks before it (nearest first), the block, and
  the blocks after it.
* Machine integers are natural numbers and integers with the wrap-around written
  out.  The widths are those of the LP64 targets the source is written for
  (it includes `fcntl.h` and `unistd.h`): `size_t` and pointers have 64 bits,
  `int` and `unsigned` have 32 bits, `uint16_t` has 16 bits.
* A pointer is its numeric value; `nullptr` is `0`.
* The method `initialize` is called `initialise` here, `initialize` being a
  keyword of Lean.  The address that `new char[...]` hands back in it is an
  argument of `initialise`; a failing `new` (an exception) is outside the model.
* A word size of 0 makes `allocate` divide by zero in the source; the statements
  about `allocate` are for a word size above 0.
-/

namespace MemMgr

/-! ## Machine arithmetic -/

/-- Number of values of a 64 bit `size_t` (2^64). -/
def sizeMod : Nat := 18446744073709551616

/-- Number of values of a 32 bit `unsigned` (2^32). -/
def uintMod : Nat := 4294967296

/-- Number of values of a `uint16_t` (2^16). -/
def u16Mod : Nat := 65536

/-- The value of `std::numeric_limits<size_t>::max()`. -/
def sizeMax : Nat := 18446744073709551615

/-- Addition of two `size_t` values. -/
def add64 (a b : Nat) : Nat := (a + b) % sizeMod

/-- Subtraction of two `size_t` values (also the conversion of a pointer
difference to `size_t`). -/
def sub64 (a b : Nat) : Nat := (a + sizeMod - b % sizeMod) % sizeMod

/-- Multiplication of two `size_t` values. -/
def mul64 (a b : Nat) : Nat := (a * b) % sizeMod

/-- Conversion of an `int` to `size_t`, as the usual arithmetic conversions do
when an `int` meets a `size_t` in a comparison or a sum. -/
def toSizeT (i : Int) : Nat := (i % (sizeMod : Int)).toNat

/-- Conversion of an `int` to `unsigned`. -/
def toUnsigned (i : Int) : Nat := (i % (uintMod : Int)).toNat

/-- Conversion of a `size_t` to `int` (keeps the low 32 bits, two's complement). -/
def toInt (n : Nat) : Int :=
  if n % uintMod < 2147483648 then ((n % uintMod : Nat) : Int)
  else ((n % uintMod : Nat) : Int) - (uintMod : Int)

/-- The cast `static_cast<uint16_t>`. -/
def toUInt16 (n : Nat) : Nat := n % u16Mod

/-! ## Data model -/

/-- One node of the block list: `struct MemoryBlock` without its links. -/
structure MemoryBlock where
  start : Nat
  size : Nat
  isFree : Bool
deriving DecidableEq, Repr

/-- The type of `allocator_`: `std::function<int(int, void *)>`, where the
pointer is the `uint16_t` array built by `getList`. -/
abbrev Allocator := Int → List Nat → Int

/-- The fields of `class MemoryManager`. -/
structure MemoryManager where
  wordSize_ : Nat
  sizeInWords_ : Nat
  memoryStart_ : Nat
  allocator_ : Allocator
  blocksHead : List MemoryBlock

/-! ## Placement strategies -/

/-- Body of the loop of `bestFit`; the accumulator is `(bestStart, smallestSize)`. -/
def bestFitStep (sizeInWords : Int) (holeList : List Nat) (acc : Int × Nat) (i : Nat) :
    Int × Nat :=
  let start := holeList.getD (1 + i * 2) 0
  let size := holeList.getD (2 + i * 2) 0
  if toSizeT sizeInWords ≤ size ∧ size < acc.2 then (toInt start, size) else acc

/-- The function `bestFit` of the source. -/
def bestFit (sizeInWords : Int) (holeList : List Nat) : Int :=
  let numberOfHoles := holeList.getD 0 0
  ((List.range numberOfHoles).foldl (bestFitStep sizeInWords holeList) (-1, sizeMax)).1

/-- Body of the loop of `worstFit`; the accumulator is `(worstStart, largestSize)`. -/
def worstFitStep (sizeInWords : Int) (holeList : List Nat) (acc : Int × Nat) (i : Nat) :
    Int × Nat :=
  let start := holeList.getD (1 + i * 2) 0
  let size := holeList.getD (2 + i * 2) 0
  if toSizeT sizeInWords ≤ size ∧ size > acc.2 then (toInt start, size) else acc

/-- The function `worstFit` of the source. -/
def worstFit (sizeInWords : Int) (holeList : List Nat) : Int :=
  let numberOfHoles := holeList.getD 0 0
  ((List.range numberOfHoles).foldl (worstFitStep sizeInWords holeList) (-1, 0)).1

/-! ## Lifecycle -/

/-- The constructor `MemoryManager::MemoryManager`. -/
def construct (wordSize : Nat) (allocator : Allocator) : MemoryManager :=
  { wordSize_ := wordSize, sizeInWords_ := 0, memoryStart_ := 0,
    allocator_ := allocator, blocksHead := [] }

/-- The method `MemoryManager::shutdown`. -/
def shutdown (m : MemoryManager) : MemoryManager :=
  { m with memoryStart_ := 0, sizeInWords_ := 0, blocksHead := [] }

/-- The source's `MemoryManager::initialize`; `arena` is the address returned by
`new char[sizeInWords_ * wordSize_]`. -/
def initialise (m : MemoryManager) (sizeInWords : Nat) (arena : Nat) : MemoryManager :=
  { shutdown m with
    sizeInWords_ := sizeInWords
    memoryStart_ := arena
    blocksHead := [{ start := 0, size := sizeInWords, isFree := true }] }

/-- The method `MemoryManager::setAllocator`. -/
def setAllocator (m : MemoryManager) (allocator : Allocator) : MemoryManager :=
  { m with allocator_ := allocator }

/-! ## getList -/

/-- First loop of `getList`: the number of free blocks. -/
def countHoles : List MemoryBlock → Nat
  | [] => 0
  | b :: rest => if b.isFree then countHoles rest + 1 else countHoles rest

/-- Second loop of `getList`: start and size of each free block, cast to
`uint16_t`. -/
def holeEntries : List MemoryBlock → List Nat
  | [] => []
  | b :: rest =>
    if b.isFree then toUInt16 b.start :: toUInt16 b.size :: holeEntries rest
    else holeEntries rest

/-- The method `MemoryManager::getList`; `none` is `nullptr`. -/
def getList (m : MemoryManager) : Option (List Nat) :=
  let numberOfHoles := countHoles m.blocksHead
  if numberOfHoles = 0 then none
  else some (toUInt16 numberOfHoles :: holeEntries m.blocksHead)

/-! ## allocate -/

/-- The expression `(sizeInBytes + wordSize_ - 1) / wordSize_` of `allocate`,
evaluated in `size_t`. -/
def requiredWordsOf (wordSize sizeInBytes : Nat) : Nat :=
  sub64 (add64 sizeInBytes wordSize) 1 / wordSize

/-- The test of the `while` loop of `allocate` on one block. -/
def fits (startWord : Int) (requiredWords : Nat) (current : MemoryBlock) : Bool :=
  current.isFree && decide (current.start ≤ toSizeT startWord) &&
    decide (add64 (toSizeT startWord) requiredWords ≤ add64 current.start current.size)

/-- What `allocate` does to the block its loop stops at: split it when it is
larger than required, then mark it allocated.  The result is the block and, when
split, the new free block linked after it. -/
def carveBlock (requiredWords : Nat) (current : MemoryBlock) : List MemoryBlock :=
  if current.size > requiredWords then
    [ { start := current.start, size := requiredWords, isFree := false },
      { start := add64 current.start requiredWords,
        size := sub64 current.size requiredWords, isFree := true } ]
  else [ { current with isFree := false } ]

/-- The `while` loop of `allocate` (lines 73 to 91): the new block list, or `none`
when the loop runs off the end of the list (lines 92 and 93). -/
def carve (startWord : Int) (requiredWords : Nat) : List MemoryBlock → Option (List MemoryBlock)
  | [] => none
  | current :: rest =>
    if fits startWord requiredWords current then
      some (carveBlock requiredWords current ++ rest)
    else (carve startWord requiredWords rest).map (fun r => current :: r)

/-- The returned pointer `memoryStart_ + (startWord * wordSize_)`: the product of
an `int` and an `unsigned` is an `unsigned`. -/
def addressOf (m : MemoryManager) (startWord : Int) : Nat :=
  add64 m.memoryStart_ ((toUnsigned startWord * m.wordSize_) % uintMod)

/-- The method `MemoryManager::allocate`: the returned pointer (`0` is `nullptr`)
and the manager afterwards. -/
def allocate (m : MemoryManager) (sizeInBytes : Nat) : Nat × MemoryManager :=
  if m.memoryStart_ = 0 ∨ sizeInBytes = 0 then (0, m)
  else
    let requiredWords := requiredWordsOf m.wordSize_ sizeInBytes
    match getList m with
    | none => (0, m)
    | some list =>
      let startWord := m.allocator_ (toInt requiredWords) list
      if startWord = -1 then (0, m)
      else
        match carve startWord requiredWords m.blocksHead with
        | some blocks => (addressOf m startWord, { m with blocksHead := blocks })
        | none => (0, m)

/-! ## free and mergeHoles -/

/-- Second half of `mergeHoles`: merge `block` with the block after it when that
one is free.  `before` holds the blocks in front of `block`, nearest first. -/
def mergeNext (before : List MemoryBlock) (block : MemoryBlock) (after : List MemoryBlock) :
    List MemoryBlock :=
  match after with
  | next :: after2 =>
    if next.isFree then
      before.reverse ++ { block with size := add64 block.size next.size } :: after2
    else before.reverse ++ block :: after
  | [] => before.reverse ++ block :: after

/-- The method `MemoryManager::mergeHoles` on the node `block` whose `prev` chain
is `before` (nearest first) and whose `next` chain is `after`.  When the previous
block is free the block is merged into it and the function returns at once. -/
def mergeHoles (before : List MemoryBlock) (block : MemoryBlock) (after : List MemoryBlock) :
    List MemoryBlock :=
  match before with
  | previous :: before2 =>
    if previous.isFree then
      before2.reverse ++ { previous with size := add64 previous.size block.size } :: after
    else mergeNext before block after
  | [] => mergeNext before block after

/-- The test of the `for` loop of `free` on one block. -/
def hit (wordSize offset : Nat) (current : MemoryBlock) : Bool :=
  !current.isFree && decide (mul64 current.start wordSize ≤ offset) &&
    decide (offset < add64 (mul64 current.start wordSize) (mul64 current.size wordSize))

/-- The `for` loop of `free`; `before` holds the blocks already passed, nearest
first. -/
def freeLoop (wordSize offset : Nat) : List MemoryBlock → List MemoryBlock → List MemoryBlock
  | before, [] => before.reverse
  | before, current :: after =>
    if hit wordSize offset current then
      mergeHoles before { current with isFree := true } after
    else freeLoop wordSize offset (current :: before) after

/-- The method `MemoryManager::free`. -/
def free (m : MemoryManager) (address : Nat) : MemoryManager :=
  if address = 0 ∨ m.memoryStart_ = 0 then m
  else
    { m with
      blocksHead := freeLoop m.wordSize_ (sub64 address m.memoryStart_) [] m.blocksHead }

/-! ## Call sequences -/

/-- A call of one of the two public mutators. -/
inductive Call where
  | allocate (sizeInBytes : Nat)
  | free (address : Nat)

/-- The manager after one call (the pointer `allocate` returns is dropped). -/
def step (m : MemoryManager) : Call → MemoryManager
  | Call.allocate sizeInBytes => (allocate m sizeInBytes).2
  | Call.free address => free m address

/-- The manager after a sequence of calls. -/
def run (m : MemoryManager) (calls : List Call) : MemoryManager :=
  calls.foldl step m

/-! ## Predicates of the claims -/

/-- The blocks of the list lie end to end from word `s` to word `n`: the first
starts at `s`, each next one starts where the one before it ends, and the last
one ends at `n`. -/
def Chain : List MemoryBlock → Nat → Nat → Prop
  | [], s, n => s = n
  | b :: rest, s, n => b.start = s ∧ Chain rest (s + b.size) n

instance Chain.decidable : (l : List MemoryBlock) → (s n : Nat) → Decidable (Chain l s n)
  | [], s, n => inferInstanceAs (Decidable (s = n))
  | b :: rest, s, n =>
    @instDecidableAnd (b.start = s) (Chain rest (s + b.size) n) _
      (Chain.decidable rest (s + b.size) n)

/-- The block list is contiguous, ordered and non-overlapping over `n` words,
written out: there is a first block and it starts at word 0, every further block
starts at the start plus the size of the block before it, the last block ends at
`n`, and the sizes add up to `n`. -/
def Contiguous (blocks : List MemoryBlock) (n : Nat) : Prop :=
  (∃ first rest, blocks = first :: rest ∧ first.start = 0) ∧
  (∀ i, ∀ h : i + 1 < blocks.length,
    blocks[i + 1].start = blocks[i].start + blocks[i].size) ∧
  (∀ last, blocks.getLast? = some last → last.start + last.size = n) ∧
  (blocks.map MemoryBlock.size).sum = n

/-- The state of a manager whose arena is in place: the blocks lie end to end
over the `sizeInWords_` words, `sizeInWords_` is a `size_t` and `memoryStart_` a
pointer, and the arena of `sizeInWords_ * wordSize_` bytes at `memoryStart_` lies
inside the 64 bit address space. -/
def WellFormed (m : MemoryManager) : Prop :=
  Chain m.blocksHead 0 m.sizeInWords_ ∧ m.sizeInWords_ < sizeMod ∧
    m.memoryStart_ < sizeMod ∧ m.memoryStart_ + m.sizeInWords_ * m.wordSize_ ≤ sizeMod

instance WellFormed.decidable (m : MemoryManager) : Decidable (WellFormed m) :=
  inferInstanceAs (Decidable (_ ∧ _))

/-- The byte offset `off` lies in the byte range of block `b`. -/
def inBytes (wordSize off : Nat) (b : MemoryBlock) : Prop :=
  b.start * wordSize ≤ off ∧ off < (b.start + b.size) * wordSize

instance inBytes.decidable (wordSize off : Nat) (b : MemoryBlock) :
    Decidable (inBytes wordSize off b) :=
  inferInstanceAs (Decidable (_ ∧ _))

/-- Some two neighbouring blocks of the list are both free. -/
def adjacentFree : List MemoryBlock → Bool
  | a :: b :: rest => (a.isFree && b.isFree) || adjacentFree (b :: rest)
  | _ => false

/-- The `uint16_t` array for a list of holes: their count, then start and size
of each. -/
def encodeHoles (holes : List (Nat × Nat)) : List Nat :=
  holes.length :: holes.flatMap (fun h => [h.1, h.2])

/-- Loop body of `bestFit` on a hole given as a pair, for a request already
converted to `size_t`. -/
def bestScan (q : Nat) (acc : Int × Nat) (h : Nat × Nat) : Int × Nat :=
  if q ≤ h.2 ∧ h.2 < acc.2 then (toInt h.1, h.2) else acc

/-- Loop body of `worstFit` on a hole given as a pair, for a request already
converted to `size_t`. -/
def worstScan (q : Nat) (acc : Int × Nat) (h : Nat × Nat) : Int × Nat :=
  if q ≤ h.2 ∧ h.2 > acc.2 then (toInt h.1, h.2) else acc

/-! ## The fall-back path of allocate -/

/-- Whether `allocate` runs into its last two lines (92 and 93): the manager is
ready, the request is not empty, the strategy returned a start word other than
-1, and the loop ran off the end of the list. -/
def fallbackReached (m : MemoryManager) (sizeInBytes : Nat) : Bool :=
  if m.memoryStart_ = 0 ∨ sizeInBytes = 0 then false
  else
    let requiredWords := requiredWordsOf m.wordSize_ sizeInBytes
    match getList m with
    | none => false
    | some list =>
      let startWord := m.allocator_ (toInt requiredWords) list
      if startWord = -1 then false
      else (carve startWord requiredWords m.blocksHead).isNone

/-- Word `k` lies in an allocated block of the list. -/
def allocatedAt (blocks : List MemoryBlock) (k : Nat) : Bool :=
  blocks.any (fun b => !b.isFree && decide (b.start ≤ k) && decide (k < b.start + b.size))

/-- Word `k` lies in a free block of the list. -/
def freeAt (blocks : List MemoryBlock) (k : Nat) : Bool :=
  blocks.any (fun b => b.isFree && decide (b.start ≤ k) && decide (k < b.start + b.size))

/-- A user-supplied strategy that always answers start word 2. -/
def startAtTwo : Allocator := fun _ _ => 2

/-! ## getBitmap -/

/-- The statement `bitmap[byteIndex] |= (1 << bitPosition)` for one word; the
bytes are `uint8_t`.  A write past the end of the array (undefined in the source)
changes nothing here. -/
def setWordBit (bitmap : List Nat) (word : Nat) : List Nat :=
  let byteIndex := 2 + word / 8
  let bitPosition := word % 8
  bitmap.set byteIndex ((bitmap.getD byteIndex 0 ||| (1 <<< bitPosition)) % 256)

/-- The inner `for` loop of `getBitmap` over the words of one block, from
`start` up to `start + size` computed in `size_t`. -/
def markBlock (bitmap : List Nat) (current : MemoryBlock) : List Nat :=
  (List.range' current.start (add64 current.start current.size - current.start)).foldl
    setWordBit bitmap

/-- The method `MemoryManager::getBitmap`: the bytes of the array it returns. -/
def getBitmap (m : MemoryManager) : List Nat :=
  let bitmapByteSize := add64 m.sizeInWords_ 7 / 8
  let bitmap := bitmapByteSize % 256 :: (bitmapByteSize / 256) % 256 ::
    List.replicate bitmapByteSize 0
  m.blocksHead.foldl
    (fun bitmap current => if !current.isFree then markBlock bitmap current else bitmap)
    bitmap

/-- Bit `k % 8` of byte `2 + k / 8` of a bitmap: the bit of word `k`. -/
def wordBit (bitmap : List Nat) (k : Nat) : Bool :=
  (bitmap.getD (2 + k / 8) 0).testBit (k % 8)

/-! ## dumpMemoryMap -/

/-- The text `snprintf` writes for the format `[%zu, %zu]`. -/
def renderBlock (b : MemoryBlock) : List Char :=
  "[".toList ++ (Nat.repr b.start).toList ++ ", ".toList ++ (Nat.repr b.size).toList ++
    "]".toList

/-- The `while` loop of `dumpMemoryMap`: `out` is what has been written to the
file so far (each `write` is taken to write all its bytes). -/
def dumpLoop : List MemoryBlock → Bool → List Char → List Char
  | [], _, out => out
  | current :: rest, firstBlock, out =>
    if current.isFree then
      dumpLoop rest false
        ((if !firstBlock then out ++ " - ".toList else out) ++ renderBlock current)
    else dumpLoop rest firstBlock out

/-- The method `MemoryManager::dumpMemoryMap`: the value returned and the bytes
written to the file; `fileOpens` says whether `open` succeeded. -/
def dumpMemoryMap (m : MemoryManager) (fileOpens : Bool) : Int × List Char :=
  if !fileOpens then (-1, [])
  else (0, dumpLoop m.blocksHead true [])

/-- The request of a call does not wrap in the round-up of `allocate`:
`sizeInBytes + wordSize - 1` is below `2^64`. -/
def noWrap (wordSize : Nat) : Call → Prop
  | Call.allocate sizeInBytes => sizeInBytes + wordSize ≤ sizeMod
  | Call.free _ => True

/-! ## Machine arithmetic without wrap-around -/

theorem add64_eq {a b : Nat} (h : a + b < sizeMod) : add64 a b = a + b := by
  unfold add64
  exact Nat.mod_eq_of_lt h

theorem sub64_eq {a b : Nat} (hb : b ≤ a) (ha : a < sizeMod) : sub64 a b = a - b := by
  unfold sub64
  have hb2 : b % sizeMod = b := Nat.mod_eq_of_lt (by omega)
  rw [hb2]
  have : a + sizeMod - b = (a - b) + sizeMod := by omega
  rw [this, Nat.add_mod_right]
  exact Nat.mod_eq_of_lt (by omega)

theorem mul64_eq {a b : Nat} (h : a * b < sizeMod) : mul64 a b = a * b := by
  unfold mul64
  exact Nat.mod_eq_of_lt h

/-! ## The chain of blocks -/

theorem chain_le : ∀ (l : List MemoryBlock) (s n : Nat), Chain l s n → s ≤ n
  | [], s, n, h => by
    simp only [Chain] at h
    omega
  | b :: rest, s, n, h => by
    simp only [Chain] at h
    have := chain_le rest _ _ h.2
    omega

theorem chain_append : ∀ (l1 l2 : List MemoryBlock) (s n : Nat),
    Chain (l1 ++ l2) s n ↔ ∃ k, Chain l1 s k ∧ Chain l2 k n
  | [], l2, s, n => by
    simp [Chain]
  | b :: rest, l2, s, n => by
    have ih := chain_append rest l2 (s + b.size) n
    show (b.start = s ∧ Chain (rest ++ l2) (s + b.size) n) ↔
      ∃ k, (b.start = s ∧ Chain rest (s + b.size) k) ∧ Chain l2 k n
    rw [ih]
    constructor
    · rintro ⟨h1, k, h2, h3⟩
      exact ⟨k, ⟨h1, h2⟩, h3⟩
    · rintro ⟨k, ⟨h1, h2⟩, h3⟩
      exact ⟨h1, k, h2, h3⟩

theorem chain_sum : ∀ (l : List MemoryBlock) (s n : Nat), Chain l s n →
    s + (l.map MemoryBlock.size).sum = n
  | [], s, n, h => by
    simp only [Chain] at h
    simp [h]
  | b :: rest, s, n, h => by
    simp only [Chain] at h
    have := chain_sum rest _ _ h.2
    simp only [List.map_cons, List.sum_cons]
    omega

theorem chain_consecutive : ∀ (l : List MemoryBlock) (s n : Nat), Chain l s n →
    ∀ i, ∀ h : i + 1 < l.length, l[i + 1].start = l[i].start + l[i].size
  | [], _, _, _, i, h => by
    simp at h
  | [_], _, _, _, i, h => by
    simp at h
  | a :: b :: rest, s, n, hc, i, h => by
    simp only [Chain] at hc
    cases i with
    | zero =>
      simp only [List.getElem_cons_succ, List.getElem_cons_zero]
      omega
    | succ j =>
      have hrec := chain_consecutive (b :: rest) (s + a.size) n
        (by simp only [Chain]; exact hc.2) j (by simpa using h)
      simpa using hrec

theorem chain_last : ∀ (l : List MemoryBlock) (s n : Nat), Chain l s n →
    ∀ last, l.getLast? = some last → last.start + last.size = n
  | [], _, _, _, last, h => by
    simp at h
  | [a], s, n, hc, last, h => by
    simp only [Chain] at hc
    simp only [List.getLast?_singleton, Option.some.injEq] at h
    subst h
    omega
  | a :: b :: rest, s, n, hc, last, h => by
    simp only [Chain] at hc
    rw [List.getLast?_cons_cons] at h
    exact chain_last (b :: rest) (s + a.size) n (by simp only [Chain]; exact hc.2) last h

theorem chain_contiguous (l : List MemoryBlock) (n : Nat) (hne : l ≠ [])
    (hc : Chain l 0 n) : Contiguous l n := by
  refine ⟨?_, chain_consecutive l 0 n hc, chain_last l 0 n hc, ?_⟩
  · cases l with
    | nil => exact absurd rfl hne
    | cons b rest =>
      simp only [Chain] at hc
      exact ⟨b, rest, rfl, hc.1⟩
  · have := chain_sum l 0 n hc
    omega

/-! ## allocate and free keep the chain -/

theorem carveBlock_chain (r : Nat) (b : MemoryBlock) (rest : List MemoryBlock) (s n : Nat)
    (hn : n < sizeMod) (h : Chain (b :: rest) s n) : Chain (carveBlock r b ++ rest) s n := by
  simp only [Chain] at h
  obtain ⟨h1, h2⟩ := h
  have hle := chain_le rest _ _ h2
  unfold carveBlock
  split_ifs with hgt
  · have ha : add64 b.start r = b.start + r := add64_eq (by omega)
    have hs : sub64 b.size r = b.size - r := sub64_eq (by omega) (by omega)
    simp only [List.cons_append, List.nil_append, Chain, ha, hs]
    refine ⟨h1, by omega, ?_⟩
    have : s + r + (b.size - r) = s + b.size := by omega
    rw [this]
    exact h2
  · simp only [List.cons_append, List.nil_append, Chain]
    exact ⟨h1, h2⟩

theorem carveBlock_ne_nil (r : Nat) (b : MemoryBlock) (rest : List MemoryBlock) :
    carveBlock r b ++ rest ≠ [] := by
  unfold carveBlock
  split_ifs <;> simp

theorem carve_chain (sw : Int) (r : Nat) : ∀ (l : List MemoryBlock) (s n : Nat),
    n < sizeMod → Chain l s n → ∀ l2, carve sw r l = some l2 → Chain l2 s n
  | [], _, _, _, _, l2, h => by
    simp [carve] at h
  | b :: rest, s, n, hn, hc, l2, h => by
    simp only [carve] at h
    split_ifs at h with hf
    · simp only [Option.some.injEq] at h
      subst h
      exact carveBlock_chain r b rest s n hn hc
    · simp only [Option.map_eq_some'] at h
      obtain ⟨l3, h3, rfl⟩ := h
      simp only [Chain] at hc ⊢
      exact ⟨hc.1, carve_chain sw r rest _ n hn hc.2 l3 h3⟩

theorem carve_ne_nil (sw : Int) (r : Nat) (l l2 : List MemoryBlock)
    (h : carve sw r l = some l2) : l2 ≠ [] := by
  cases l with
  | nil => simp [carve] at h
  | cons b rest =>
    simp only [carve] at h
    split_ifs at h with hf
    · simp only [Option.some.injEq] at h
      subst h
      exact carveBlock_ne_nil r b rest
    · simp only [Option.map_eq_some'] at h
      obtain ⟨l3, _, rfl⟩ := h
      simp

theorem chain_retag (before after : List MemoryBlock) (c : MemoryBlock) (x : Bool)
    (s n : Nat) (h : Chain (before ++ c :: after) s n) :
    Chain (before ++ { c with isFree := x } :: after) s n := by
  rw [chain_append] at h ⊢
  obtain ⟨k, h1, h2⟩ := h
  exact ⟨k, h1, by simpa only [Chain] using h2⟩

theorem mergeNext_chain (before : List MemoryBlock) (block : MemoryBlock)
    (after : List MemoryBlock) (s n : Nat) (hn : n < sizeMod)
    (h : Chain (before.reverse ++ block :: after) s n) :
    Chain (mergeNext before block after) s n := by
  unfold mergeNext
  split
  · rename_i next after2
    split_ifs with hfree
    · rw [chain_append] at h ⊢
      obtain ⟨k, h1, h2⟩ := h
      refine ⟨k, h1, ?_⟩
      simp only [Chain] at h2 ⊢
      obtain ⟨h3, h4, h5⟩ := h2
      have hle := chain_le after2 _ _ h5
      have ha : add64 block.size next.size = block.size + next.size := add64_eq (by omega)
      rw [ha]
      refine ⟨h3, ?_⟩
      have : k + (block.size + next.size) = k + block.size + next.size := by omega
      rw [this]
      exact h5
    · exact h
  · exact h

theorem mergeHoles_chain (before : List MemoryBlock) (block : MemoryBlock)
    (after : List MemoryBlock) (s n : Nat) (hn : n < sizeMod)
    (h : Chain (before.reverse ++ block :: after) s n) :
    Chain (mergeHoles before block after) s n := by
  unfold mergeHoles
  split
  · rename_i previous before2
    split_ifs with hfree
    · rw [List.reverse_cons, List.append_assoc, chain_append] at h
      rw [chain_append]
      obtain ⟨k, h1, h2⟩ := h
      refine ⟨k, h1, ?_⟩
      simp only [List.singleton_append, Chain] at h2 ⊢
      obtain ⟨h3, h4, h5⟩ := h2
      have hle := chain_le after _ _ h5
      have ha : add64 previous.size block.size = previous.size + block.size :=
        add64_eq (by omega)
      rw [ha]
      refine ⟨h3, ?_⟩
      have : k + (previous.size + block.size) = k + previous.size + block.size := by omega
      rw [this]
      exact h5
    · exact mergeNext_chain _ block after s n hn h
  · exact mergeNext_chain _ block after s n hn h

theorem freeLoop_chain (w off : Nat) (s n : Nat) (hn : n < sizeMod) :
    ∀ (after before : List MemoryBlock), Chain (before.reverse ++ after) s n →
      Chain (freeLoop w off before after) s n
  | [], before, h => by
    simpa [freeLoop] using h
  | current :: after, before, h => by
    simp only [freeLoop]
    split_ifs with hh
    · exact mergeHoles_chain before _ after s n hn (chain_retag _ _ current true s n h)
    · apply freeLoop_chain w off s n hn after (current :: before)
      simpa using h

theorem mergeNext_ne_nil (before : List MemoryBlock) (block : MemoryBlock)
    (after : List MemoryBlock) : mergeNext before block after ≠ [] := by
  unfold mergeNext
  split
  · split_ifs <;> simp
  · simp

theorem mergeHoles_ne_nil (before : List MemoryBlock) (block : MemoryBlock)
    (after : List MemoryBlock) : mergeHoles before block after ≠ [] := by
  unfold mergeHoles
  split
  · split_ifs
    · simp
    · exact mergeNext_ne_nil _ _ _
  · exact mergeNext_ne_nil _ _ _

theorem freeLoop_ne_nil (w off : Nat) :
    ∀ (after before : List MemoryBlock), before.reverse ++ after ≠ [] →
      freeLoop w off before after ≠ []
  | [], before, h => by
    simpa [freeLoop] using h
  | current :: after, before, h => by
    simp only [freeLoop]
    split_ifs with hh
    · exact mergeHoles_ne_nil _ _ _
    · apply freeLoop_ne_nil w off after (current :: before)
      simp

theorem allocate_cases (m : MemoryManager) (sizeInBytes : Nat) :
    allocate m sizeInBytes = (0, m) ∨
    ∃ list blocks, m.memoryStart_ ≠ 0 ∧ sizeInBytes ≠ 0 ∧ getList m = some list ∧
      m.allocator_ (toInt (requiredWordsOf m.wordSize_ sizeInBytes)) list ≠ -1 ∧
      carve (m.allocator_ (toInt (requiredWordsOf m.wordSize_ sizeInBytes)) list)
        (requiredWordsOf m.wordSize_ sizeInBytes) m.blocksHead = some blocks ∧
      allocate m sizeInBytes =
        (addressOf m (m.allocator_ (toInt (requiredWordsOf m.wordSize_ sizeInBytes)) list),
          { m with blocksHead := blocks }) := by
  unfold allocate
  split_ifs with h0
  · exact Or.inl rfl
  · dsimp only
    split
    · exact Or.inl rfl
    · rename_i list hl
      split_ifs with h1
      · exact Or.inl rfl
      · split
        · rename_i blocks hb
          refine Or.inr ⟨list, blocks, ?_, ?_, hl, h1, hb, rfl⟩
          · exact fun h => h0 (Or.inl h)
          · exact fun h => h0 (Or.inr h)
        · exact Or.inl rfl

theorem allocate_chain (m : MemoryManager) (n sizeInBytes : Nat) (hn : n < sizeMod)
    (hne : m.blocksHead ≠ []) (hc : Chain m.blocksHead 0 n) :
    (allocate m sizeInBytes).2.blocksHead ≠ [] ∧
      Chain (allocate m sizeInBytes).2.blocksHead 0 n := by
  rcases allocate_cases m sizeInBytes with h | ⟨list, blocks, _, _, _, _, hb, h⟩
  · rw [h]
    exact ⟨hne, hc⟩
  · rw [h]
    exact ⟨carve_ne_nil _ _ _ _ hb, carve_chain _ _ _ 0 n hn hc blocks hb⟩

theorem free_chain (m : MemoryManager) (n address : Nat) (hn : n < sizeMod)
    (hne : m.blocksHead ≠ []) (hc : Chain m.blocksHead 0 n) :
    (free m address).blocksHead ≠ [] ∧ Chain (free m address).blocksHead 0 n := by
  unfold free
  split_ifs
  · exact ⟨hne, hc⟩
  · exact ⟨freeLoop_ne_nil _ _ _ [] (by simpa using hne),
      freeLoop_chain _ _ 0 n hn _ [] (by simpa using hc)⟩

theorem run_chain (n : Nat) (hn : n < sizeMod) : ∀ (calls : List Call) (m : MemoryManager),
    m.blocksHead ≠ [] → Chain m.blocksHead 0 n →
      (run m calls).blocksHead ≠ [] ∧ Chain (run m calls).blocksHead 0 n
  | [], m, hne, hc => ⟨hne, hc⟩
  | Call.allocate sizeInBytes :: calls, m, hne, hc => by
    have h := allocate_chain m n sizeInBytes hn hne hc
    exact run_chain n hn calls _ h.1 h.2
  | Call.free address :: calls, m, hne, hc => by
    have h := free_chain m n address hn hne hc
    exact run_chain n hn calls _ h.1 h.2

/-- The call `allocate` touches the block list only. -/
theorem allocate_fields (m : MemoryManager) (sizeInBytes : Nat) :
    (allocate m sizeInBytes).2.wordSize_ = m.wordSize_ ∧
    (allocate m sizeInBytes).2.sizeInWords_ = m.sizeInWords_ ∧
    (allocate m sizeInBytes).2.memoryStart_ = m.memoryStart_ ∧
    (allocate m sizeInBytes).2.allocator_ = m.allocator_ := by
  rcases allocate_cases m sizeInBytes with h | ⟨list, blocks, _, _, _, _, _, h⟩
  · rw [h]
    exact ⟨rfl, rfl, rfl, rfl⟩
  · rw [h]
    exact ⟨rfl, rfl, rfl, rfl⟩

/-- The call `free` touches the block list only. -/
theorem free_fields (m : MemoryManager) (address : Nat) :
    (free m address).wordSize_ = m.wordSize_ ∧
    (free m address).sizeInWords_ = m.sizeInWords_ ∧
    (free m address).memoryStart_ = m.memoryStart_ ∧
    (free m address).allocator_ = m.allocator_ := by
  unfold free
  split_ifs
  · exact ⟨rfl, rfl, rfl, rfl⟩
  · exact ⟨rfl, rfl, rfl, rfl⟩

theorem step_fields (m : MemoryManager) (call : Call) :
    (step m call).wordSize_ = m.wordSize_ ∧
    (step m call).sizeInWords_ = m.sizeInWords_ ∧
    (step m call).memoryStart_ = m.memoryStart_ ∧
    (step m call).allocator_ = m.allocator_ := by
  cases call with
  | allocate sizeInBytes => exact allocate_fields m sizeInBytes
  | free address => exact free_fields m address

theorem run_fields : ∀ (calls : List Call) (m : MemoryManager),
    (run m calls).wordSize_ = m.wordSize_ ∧
    (run m calls).sizeInWords_ = m.sizeInWords_ ∧
    (run m calls).memoryStart_ = m.memoryStart_ ∧
    (run m calls).allocator_ = m.allocator_
  | [], _ => ⟨rfl, rfl, rfl, rfl⟩
  | call :: calls, m => by
    have h1 := step_fields m call
    have h2 := run_fields calls (step m call)
    have e : run m (call :: calls) = run (step m call) calls := rfl
    rw [e]
    exact ⟨h2.1.trans h1.1, h2.2.1.trans h1.2.1, h2.2.2.1.trans h1.2.2.1,
      h2.2.2.2.trans h1.2.2.2⟩

theorem initialise_chain (m : MemoryManager) (n arena : Nat) :
    (initialise m n arena).blocksHead ≠ [] ∧ Chain (initialise m n arena).blocksHead 0 n := by
  simp [initialise, Chain]

/-! ## The strategies as folds over the holes -/

theorem toSizeT_natCast (r : Nat) (h : r < sizeMod) : toSizeT (r : Int) = r := by
  unfold toSizeT
  have : ((r : Int) % (sizeMod : Int)) = ((r % sizeMod : Nat) : Int) := by
    simp
  rw [this, Int.toNat_ofNat]
  exact Nat.mod_eq_of_lt h

theorem toInt_small (n : Nat) (h : n < 2147483648) : toInt n = (n : Int) := by
  unfold toInt uintMod
  have h1 : n % 4294967296 = n := Nat.mod_eq_of_lt (by omega)
  rw [h1, if_pos h]

theorem flat_getD : ∀ (holes : List (Nat × Nat)) (i : Nat),
    (holes.flatMap (fun h => [h.1, h.2])).getD (i * 2) 0 = (holes.getD i (0, 0)).1 ∧
    (holes.flatMap (fun h => [h.1, h.2])).getD (i * 2 + 1) 0 = (holes.getD i (0, 0)).2
  | [], i => by
    simp
  | h :: rest, 0 => by
    simp
  | h :: rest, i + 1 => by
    have ih := flat_getD rest i
    have e1 : (i + 1) * 2 = i * 2 + 1 + 1 := by ring
    simp only [List.flatMap_cons, List.cons_append, List.nil_append, e1,
      List.getD_cons_succ]
    exact ih

theorem encode_getD (holes : List (Nat × Nat)) (i : Nat) :
    (encodeHoles holes).getD (1 + i * 2) 0 = (holes.getD i (0, 0)).1 ∧
    (encodeHoles holes).getD (2 + i * 2) 0 = (holes.getD i (0, 0)).2 := by
  have h := flat_getD holes i
  have e1 : 1 + i * 2 = i * 2 + 1 := by ring
  have e2 : 2 + i * 2 = i * 2 + 1 + 1 := by ring
  unfold encodeHoles
  rw [e1, e2]
  simp only [List.getD_cons_succ]
  exact h

theorem foldl_range_getD {β : Type} (f : β → Nat × Nat → β) :
    ∀ (l : List (Nat × Nat)) (init : β),
      (List.range l.length).foldl (fun acc i => f acc (l.getD i (0, 0))) init =
        l.foldl f init
  | [], init => by
    simp
  | x :: rest, init => by
    rw [List.length_cons, List.range_succ_eq_map, List.foldl_cons, List.foldl_map]
    simp only [List.getD_cons_zero, List.getD_cons_succ, List.foldl_cons]
    exact foldl_range_getD f rest (f init x)

theorem bestFit_fold (sizeInWords : Int) (holes : List (Nat × Nat)) :
    bestFit sizeInWords (encodeHoles holes) =
      (holes.foldl (bestScan (toSizeT sizeInWords)) (-1, sizeMax)).1 := by
  have hstep : bestFitStep sizeInWords (encodeHoles holes) =
      fun acc i => bestScan (toSizeT sizeInWords) acc (holes.getD i (0, 0)) := by
    funext acc i
    unfold bestFitStep bestScan
    simp only [(encode_getD holes i).1, (encode_getD holes i).2]
  unfold bestFit
  simp only [hstep]
  have h0 : (encodeHoles holes).getD 0 0 = holes.length := by
    simp [encodeHoles]
  rw [h0, foldl_range_getD]

theorem worstFit_fold (sizeInWords : Int) (holes : List (Nat × Nat)) :
    worstFit sizeInWords (encodeHoles holes) =
      (holes.foldl (worstScan (toSizeT sizeInWords)) (-1, 0)).1 := by
  have hstep : worstFitStep sizeInWords (encodeHoles holes) =
      fun acc i => worstScan (toSizeT sizeInWords) acc (holes.getD i (0, 0)) := by
    funext acc i
    unfold worstFitStep worstScan
    simp only [(encode_getD holes i).1, (encode_getD holes i).2]
  unfold worstFit
  simp only [hstep]
  have h0 : (encodeHoles holes).getD 0 0 = holes.length := by
    simp [encodeHoles]
  rw [h0, foldl_range_getD]

/-- What the loop of `bestFit` returns for an accumulator `acc` and the holes
`l` still to visit: either no hole beats the accumulator, or the result is the
first hole of least size among those that do. -/
theorem bestScan_spec (q : Nat) : ∀ (l : List (Nat × Nat)) (acc : Int × Nat),
    (l.foldl (bestScan q) acc = acc ∧ ∀ x ∈ l, q ≤ x.2 → acc.2 ≤ x.2) ∨
    (∃ pre h post, l = pre ++ h :: post ∧ q ≤ h.2 ∧ h.2 < acc.2 ∧
      (∀ x ∈ pre, q ≤ x.2 → h.2 < x.2) ∧ (∀ x ∈ post, q ≤ x.2 → h.2 ≤ x.2) ∧
      l.foldl (bestScan q) acc = (toInt h.1, h.2))
  | [], acc => by
    left
    simp
  | x :: rest, acc => by
    rw [List.foldl_cons]
    by_cases hx : q ≤ x.2 ∧ x.2 < acc.2
    · have hacc : bestScan q acc x = (toInt x.1, x.2) := by
        unfold bestScan
        rw [if_pos hx]
      rw [hacc]
      rcases bestScan_spec q rest (toInt x.1, x.2) with ⟨h1, h2⟩ | ⟨pre, h, post, e, h1, h2, h3, h4, h5⟩
      · right
        refine ⟨[], x, rest, rfl, hx.1, hx.2, ?_, ?_, h1⟩
        · intro y hy
          simp at hy
        · exact h2
      · right
        refine ⟨x :: pre, h, post, by rw [e]; rfl, h1, ?_, ?_, h4, h5⟩
        · simp only at h2
          omega
        · intro y hy hq
          rcases List.mem_cons.mp hy with rfl | hy
          · exact h2
          · exact h3 y hy hq
    · have hacc : bestScan q acc x = acc := by
        unfold bestScan
        rw [if_neg hx]
      rw [hacc]
      rcases bestScan_spec q rest acc with ⟨h1, h2⟩ | ⟨pre, h, post, e, h1, h2, h3, h4, h5⟩
      · left
        refine ⟨h1, ?_⟩
        intro y hy hq
        rcases List.mem_cons.mp hy with rfl | hy
        · omega
        · exact h2 y hy hq
      · right
        refine ⟨x :: pre, h, post, by rw [e]; rfl, h1, h2, ?_, h4, h5⟩
        intro y hy hq
        rcases List.mem_cons.mp hy with rfl | hy
        · omega
        · exact h3 y hy hq

/-- What the loop of `worstFit` returns for an accumulator `acc` and the holes
`l` still to visit: either no hole beats the accumulator, or the result is the
first hole of greatest size among those that do. -/
theorem worstScan_spec (q : Nat) : ∀ (l : List (Nat × Nat)) (acc : Int × Nat),
    (l.foldl (worstScan q) acc = acc ∧ ∀ x ∈ l, q ≤ x.2 → x.2 ≤ acc.2) ∨
    (∃ pre h post, l = pre ++ h :: post ∧ q ≤ h.2 ∧ acc.2 < h.2 ∧
      (∀ x ∈ pre, q ≤ x.2 → x.2 < h.2) ∧ (∀ x ∈ post, q ≤ x.2 → x.2 ≤ h.2) ∧
      l.foldl (worstScan q) acc = (toInt h.1, h.2))
  | [], acc => by
    left
    simp
  | x :: rest, acc => by
    rw [List.foldl_cons]
    by_cases hx : q ≤ x.2 ∧ x.2 > acc.2
    · have hacc : worstScan q acc x = (toInt x.1, x.2) := by
        unfold worstScan
        rw [if_pos hx]
      rw [hacc]
      rcases worstScan_spec q rest (toInt x.1, x.2) with ⟨h1, h2⟩ | ⟨pre, h, post, e, h1, h2, h3, h4, h5⟩
      · right
        refine ⟨[], x, rest, rfl, hx.1, hx.2, ?_, ?_, h1⟩
        · intro y hy
          simp at hy
        · exact h2
      · right
        refine ⟨x :: pre, h, post, by rw [e]; rfl, h1, ?_, ?_, h4, h5⟩
        · simp only at h2
          omega
        · intro y hy hq
          rcases List.mem_cons.mp hy with rfl | hy
          · exact h2
          · exact h3 y hy hq
    · have hacc : worstScan q acc x = acc := by
        unfold worstScan
        rw [if_neg hx]
      rw [hacc]
      rcases worstScan_spec q rest acc with ⟨h1, h2⟩ | ⟨pre, h, post, e, h1, h2, h3, h4, h5⟩
      · left
        refine ⟨h1, ?_⟩
        intro y hy hq
        rcases List.mem_cons.mp hy with rfl | hy
        · omega
        · exact h2 y hy hq
      · right
        refine ⟨x :: pre, h, post, by rw [e]; rfl, h1, h2, ?_, h4, h5⟩
        intro y hy hq
        rcases List.mem_cons.mp hy with rfl | hy
        · omega
        · exact h3 y hy hq

/-! ## The loop of free -/

theorem chain_bounds : ∀ (l : List MemoryBlock) (s n : Nat), Chain l s n →
    ∀ x ∈ l, s ≤ x.start ∧ x.start + x.size ≤ n
  | [], _, _, _, x, hx => by
    simp at hx
  | b :: rest, s, n, hc, x, hx => by
    simp only [Chain] at hc
    have hle := chain_le rest _ _ hc.2
    rcases List.mem_cons.mp hx with rfl | hx
    · omega
    · have := chain_bounds rest _ n hc.2 x hx
      omega

theorem chain_before (pre post : List MemoryBlock) (b : MemoryBlock) (s n : Nat)
    (hc : Chain (pre ++ b :: post) s n) : ∀ x ∈ pre, x.start + x.size ≤ b.start := by
  rw [chain_append] at hc
  obtain ⟨k, h1, h2⟩ := hc
  simp only [Chain] at h2
  intro x hx
  have := chain_bounds pre s k h1 x hx
  omega

theorem chain_after (pre post : List MemoryBlock) (b : MemoryBlock) (s n : Nat)
    (hc : Chain (pre ++ b :: post) s n) : ∀ x ∈ post, b.start + b.size ≤ x.start := by
  rw [chain_append] at hc
  obtain ⟨k, _, h2⟩ := hc
  simp only [Chain] at h2
  intro x hx
  have := chain_bounds post _ n h2.2 x hx
  omega

theorem hit_eq (w off n : Nat) (x : MemoryBlock) (hx : x.start + x.size ≤ n)
    (hb : n * w < sizeMod) :
    hit w off x = (!x.isFree && decide (x.start * w ≤ off) &&
      decide (off < (x.start + x.size) * w)) := by
  have h1 : (x.start + x.size) * w ≤ n * w := Nat.mul_le_mul_right w hx
  have h2 : (x.start + x.size) * w = x.start * w + x.size * w := Nat.add_mul _ _ _
  have e1 : mul64 x.start w = x.start * w := mul64_eq (by omega)
  have e2 : mul64 x.size w = x.size * w := mul64_eq (by omega)
  have e3 : add64 (x.start * w) (x.size * w) = x.start * w + x.size * w :=
    add64_eq (by omega)
  unfold hit
  rw [e1, e2, e3, h2]

theorem hit_iff (w off n : Nat) (x : MemoryBlock) (hx : x.start + x.size ≤ n)
    (hb : n * w < sizeMod) :
    hit w off x = true ↔ x.isFree = false ∧ inBytes w off x := by
  rw [hit_eq w off n x hx hb]
  unfold inBytes
  cases x.isFree <;> simp

theorem freeLoop_miss (w off : Nat) : ∀ (after before : List MemoryBlock),
    (∀ x ∈ after, hit w off x = false) →
      freeLoop w off before after = before.reverse ++ after
  | [], before, _ => by
    simp [freeLoop]
  | current :: after, before, h => by
    have hc : hit w off current = false := h current (by simp)
    simp only [freeLoop, hc, Bool.false_eq_true, if_false]
    rw [freeLoop_miss w off after (current :: before)
      (fun x hx => h x (List.mem_cons_of_mem _ hx))]
    simp

theorem freeLoop_hit (w off : Nat) (b : MemoryBlock) (post : List MemoryBlock)
    (hb : hit w off b = true) : ∀ (pre before : List MemoryBlock),
    (∀ x ∈ pre, hit w off x = false) →
      freeLoop w off before (pre ++ b :: post) =
        mergeHoles (pre.reverse ++ before) { b with isFree := true } post
  | [], before, _ => by
    simp [freeLoop, hb]
  | current :: pre, before, h => by
    have hc : hit w off current = false := h current (by simp)
    have ih := freeLoop_hit w off b post hb pre (current :: before)
      (fun x hx => h x (List.mem_cons_of_mem _ hx))
    rw [List.cons_append]
    simp only [freeLoop, hc, Bool.false_eq_true, if_false]
    rw [ih]
    simp

/-- In a chain whose bytes do not wrap, an offset inside block `b` misses every
block in front of `b`. -/
theorem miss_before (w off s n : Nat) (pre post : List MemoryBlock) (b : MemoryBlock)
    (hc : Chain (pre ++ b :: post) s n) (hbytes : n * w < sizeMod)
    (hin : b.start * w ≤ off) : ∀ x ∈ pre, hit w off x = false := by
  intro x hx
  have hbnd := chain_bounds _ s n hc x (by simp [hx])
  have hle := chain_before pre post b s n hc x hx
  have h1 : (x.start + x.size) * w ≤ b.start * w := Nat.mul_le_mul_right w hle
  rw [hit_eq w off n x hbnd.2 hbytes]
  have : ¬ off < (x.start + x.size) * w := by omega
  simp [this]

/-- In a chain whose bytes do not wrap, an offset inside block `b` misses every
block behind `b`. -/
theorem miss_after (w off s n : Nat) (pre post : List MemoryBlock) (b : MemoryBlock)
    (hc : Chain (pre ++ b :: post) s n) (hbytes : n * w < sizeMod)
    (hin : off < (b.start + b.size) * w) : ∀ x ∈ post, hit w off x = false := by
  intro x hx
  have hbnd := chain_bounds _ s n hc x (by simp [hx])
  have hle := chain_after pre post b s n hc x hx
  have h1 : (b.start + b.size) * w ≤ x.start * w := Nat.mul_le_mul_right w hle
  rw [hit_eq w off n x hbnd.2 hbytes]
  have : ¬ x.start * w ≤ off := by omega
  simp [this]

theorem mergeHoles_ne (before after : List MemoryBlock) (b : MemoryBlock)
    (hb : b.isFree = false) :
    mergeHoles before { b with isFree := true } after ≠ before.reverse ++ b :: after := by
  have hkeep : before.reverse ++ { b with isFree := true } :: after ≠
      before.reverse ++ b :: after := by
    intro h
    have h2 := List.append_cancel_left h
    simp only [List.cons.injEq] at h2
    have h3 := congrArg MemoryBlock.isFree h2.1
    simp only [hb] at h3
    exact Bool.noConfusion h3
  have hnext : mergeNext before { b with isFree := true } after ≠
      before.reverse ++ b :: after := by
    unfold mergeNext
    split
    · split_ifs
      · intro h
        have := congrArg List.length h
        simp at this
      · exact hkeep
    · exact hkeep
  unfold mergeHoles
  split
  · split_ifs
    · intro h
      have := congrArg List.length h
      simp at this
    · exact hnext
  · exact hnext

theorem sub64_add_left (base off : Nat) (hbase : base < sizeMod) (hoff : off < sizeMod) :
    sub64 (base + off) base = off := by
  unfold sub64
  rw [Nat.mod_eq_of_lt hbase]
  have : base + off + sizeMod - base = off + sizeMod := by omega
  rw [this, Nat.add_mod_right]
  exact Nat.mod_eq_of_lt hoff

/-- The block list after `free` on an address whose offset lies in the allocated
block `b`: `b` is marked free and handed to `mergeHoles`. -/
theorem free_hit_blocks (m : MemoryManager) (pre post : List MemoryBlock) (b : MemoryBlock)
    (off : Nat) (hready : m.memoryStart_ ≠ 0) (hwf : WellFormed m)
    (hsplit : m.blocksHead = pre ++ b :: post) (halloc : b.isFree = false)
    (hin : inBytes m.wordSize_ off b) :
    free m (m.memoryStart_ + off) =
      { m with blocksHead := mergeHoles pre.reverse { b with isFree := true } post } := by
  obtain ⟨hc, _, hbase, harena⟩ := hwf
  have hbytes : m.sizeInWords_ * m.wordSize_ < sizeMod := by omega
  rw [hsplit] at hc
  have hbnd := chain_bounds _ 0 _ hc b (by simp)
  have h1 : (b.start + b.size) * m.wordSize_ ≤ m.sizeInWords_ * m.wordSize_ :=
    Nat.mul_le_mul_right _ hbnd.2
  have hlt := hin.2
  have hoff : off < sizeMod := by omega
  have hhit : hit m.wordSize_ off b = true :=
    (hit_iff _ off _ b hbnd.2 hbytes).2 ⟨halloc, hin⟩
  have hmiss := miss_before _ off 0 _ pre post b hc hbytes hin.1
  unfold free
  rw [if_neg (by omega), sub64_add_left _ off (by omega) hoff, hsplit,
    freeLoop_hit _ off b post hhit pre [] hmiss]
  simp

theorem blocks_eta (m : MemoryManager) : { m with blocksHead := m.blocksHead } = m := by
  cases m
  rfl

theorem free_miss (m : MemoryManager) (address : Nat)
    (h : ∀ x ∈ m.blocksHead, hit m.wordSize_ (sub64 address m.memoryStart_) x = false) :
    free m address = m := by
  unfold free
  split_ifs
  · rfl
  · rw [freeLoop_miss _ _ _ [] h]
    exact blocks_eta m

/-- In a chain whose bytes do not wrap, an offset at or past the end of the arena
misses every block. -/
theorem miss_outside (w off s n : Nat) (l : List MemoryBlock) (hc : Chain l s n)
    (hbytes : n * w < sizeMod) (hoff : n * w ≤ off) : ∀ x ∈ l, hit w off x = false := by
  intro x hx
  have hbnd := chain_bounds l s n hc x hx
  have h1 : (x.start + x.size) * w ≤ n * w := Nat.mul_le_mul_right w hbnd.2
  rw [hit_eq w off n x hbnd.2 hbytes]
  have : ¬ off < (x.start + x.size) * w := by omega
  simp [this]

/-- In a chain whose bytes do not wrap, an offset inside a free block misses
every block: no allocated block contains it. -/
theorem miss_of_free (w off s n : Nat) (l : List MemoryBlock) (f : MemoryBlock)
    (hc : Chain l s n) (hbytes : n * w < sizeMod) (hf : f ∈ l) (hfree : f.isFree = true)
    (hin : inBytes w off f) : ∀ x ∈ l, hit w off x = false := by
  obtain ⟨pre, post, rfl⟩ := List.append_of_mem hf
  intro x hx
  rcases List.mem_append.mp hx with hx | hx
  · exact miss_before w off s n pre post f hc hbytes hin.1 x hx
  · rcases List.mem_cons.mp hx with rfl | hx
    · unfold hit
      simp [hfree]
    · exact miss_after w off s n pre post f hc hbytes hin.2 x hx

theorem first_hit (p : MemoryBlock → Bool) : ∀ (l : List MemoryBlock),
    (∃ x ∈ l, p x = true) →
      ∃ pre b post, l = pre ++ b :: post ∧ p b = true ∧ ∀ x ∈ pre, p x = false
  | [], h => by
    simp at h
  | c :: rest, h => by
    by_cases hc : p c = true
    · exact ⟨[], c, rest, rfl, hc, by simp⟩
    · have hrest : ∃ x ∈ rest, p x = true := by
        obtain ⟨x, hx, hpx⟩ := h
        rcases List.mem_cons.mp hx with rfl | hx
        · exact absurd hpx hc
        · exact ⟨x, hx, hpx⟩
      obtain ⟨pre, b, post, e, hb, hpre⟩ := first_hit p rest hrest
      refine ⟨c :: pre, b, post, by rw [e]; rfl, hb, ?_⟩
      intro x hx
      rcases List.mem_cons.mp hx with rfl | hx
      · simpa using hc
      · exact hpre x hx

/-- After `mergeHoles` on the released block `b`, the bytes of `b` lie in a free
block of the result. -/
theorem mergeHoles_has_free (w off s n : Nat) (before after : List MemoryBlock)
    (b : MemoryBlock) (hn : n < sizeMod) (hc : Chain (before.reverse ++ b :: after) s n)
    (hin : inBytes w off b) :
    ∃ f ∈ mergeHoles before { b with isFree := true } after,
      f.isFree = true ∧ inBytes w off f := by
  have hkeep : ∃ f ∈ before.reverse ++ { b with isFree := true } :: after,
      f.isFree = true ∧ inBytes w off f :=
    ⟨{ b with isFree := true }, by simp, rfl, hin⟩
  have hnext : ∃ f ∈ mergeNext before { b with isFree := true } after,
      f.isFree = true ∧ inBytes w off f := by
    unfold mergeNext
    split
    · rename_i next after2
      split_ifs with hfree
      · rw [chain_append] at hc
        obtain ⟨k, _, h2⟩ := hc
        simp only [Chain] at h2
        have hle := chain_le after2 _ _ h2.2.2
        have ha : add64 b.size next.size = b.size + next.size := add64_eq (by omega)
        refine ⟨_, List.mem_append_right _ (List.mem_cons_self _ _), rfl, ?_⟩
        simp only [ha]
        unfold inBytes at hin ⊢
        have h3 : (b.start + b.size) * w ≤ (b.start + (b.size + next.size)) * w :=
          Nat.mul_le_mul_right w (by omega)
        simp only
        omega
      · exact hkeep
    · exact hkeep
  unfold mergeHoles
  split
  · rename_i previous before2
    split_ifs with hfree
    · rw [List.reverse_cons, List.append_assoc, chain_append] at hc
      obtain ⟨k, _, h2⟩ := hc
      simp only [List.singleton_append, Chain] at h2
      have hle := chain_le after _ _ h2.2.2
      have ha : add64 previous.size b.size = previous.size + b.size := add64_eq (by omega)
      refine ⟨_, List.mem_append_right _ (List.mem_cons_self _ _), hfree, ?_⟩
      simp only [ha]
      unfold inBytes at hin ⊢
      have h3 : previous.start * w ≤ b.start * w := Nat.mul_le_mul_right w (by omega)
      have h4 : previous.start + (previous.size + b.size) = b.start + b.size := by omega
      simp only [h4]
      omega
    · exact hnext
  · exact hnext

/-- A second `free` of the same address changes nothing more. -/
theorem free_free (m : MemoryManager) (address : Nat) (hwf : WellFormed m) :
    free (free m address) address = free m address := by
  by_cases h0 : address = 0 ∨ m.memoryStart_ = 0
  · have : free m address = m := by
      unfold free
      rw [if_pos h0]
    rw [this, this]
  · obtain ⟨hc, hn, hbase, harena⟩ := hwf
    have hbytes : m.sizeInWords_ * m.wordSize_ < sizeMod := by omega
    by_cases hex : ∃ x ∈ m.blocksHead,
        hit m.wordSize_ (sub64 address m.memoryStart_) x = true
    · obtain ⟨pre, b, post, e, hb, hpre⟩ := first_hit _ _ hex
      have hfree : free m address =
          { m with blocksHead := mergeHoles pre.reverse { b with isFree := true } post } := by
        unfold free
        rw [if_neg h0, e, freeLoop_hit _ _ b post hb pre [] hpre]
        simp
      rw [e] at hc
      have hbnd := chain_bounds _ 0 _ hc b (by simp)
      have hin := ((hit_iff _ _ _ b hbnd.2 hbytes).1 hb).2
      obtain ⟨f, hf, hff, hfin⟩ := mergeHoles_has_free _ _ 0 _ pre.reverse post b hn
        (by simpa using hc) hin
      have hc2 := mergeHoles_chain pre.reverse { b with isFree := true } post 0 _ hn
        (by simpa using chain_retag pre post b true 0 _ hc)
      rw [hfree]
      exact free_miss _ address (miss_of_free _ _ 0 _ _ f hc2 hbytes hf hff hfin)
    · have hm : free m address = m := by
        apply free_miss
        intro x hx
        by_contra hne
        exact hex ⟨x, hx, by simpa using hne⟩
      rw [hm, hm]

/-- Every state reached from `initialize(n)` by `allocate` and `free` calls is
well formed, when the arena lies inside the address space. -/
theorem run_wellFormed (wordSize n arena : Nat) (allocator : Allocator) (calls : List Call)
    (hn : n < sizeMod) (ha : arena < sizeMod) (hfit : arena + n * wordSize ≤ sizeMod) :
    WellFormed (run (initialise (construct wordSize allocator) n arena) calls) := by
  have h0 := initialise_chain (construct wordSize allocator) n arena
  have h := run_chain n hn calls _ h0.1 h0.2
  have hf := run_fields calls (initialise (construct wordSize allocator) n arena)
  unfold WellFormed
  rw [hf.1, hf.2.1, hf.2.2.1]
  exact ⟨h.2, hn, ha, hfit⟩

/-! ## One allocation on a fresh arena -/

theorem requiredWordsOf_eq (w sizeInBytes : Nat) (h0 : sizeInBytes ≠ 0)
    (hwrap : sizeInBytes + w ≤ sizeMod) :
    requiredWordsOf w sizeInBytes = (sizeInBytes + w - 1) / w := by
  unfold requiredWordsOf
  have : sub64 (add64 sizeInBytes w) 1 = sizeInBytes + w - 1 := by
    unfold add64 sub64
    rcases Nat.lt_or_ge (sizeInBytes + w) sizeMod with hlt | hge
    · rw [Nat.mod_eq_of_lt hlt]
      have h1 : 1 % sizeMod = 1 := by decide
      rw [h1]
      have h2 : sizeInBytes + w + sizeMod - 1 = (sizeInBytes + w - 1) + sizeMod := by omega
      rw [h2, Nat.add_mod_right]
      exact Nat.mod_eq_of_lt (by omega)
    · have he : sizeInBytes + w = sizeMod := by omega
      rw [he]
      decide
  rw [this]

theorem builtin_single (allocator : Allocator)
    (hs : allocator = bestFit ∨ allocator = worstFit) (q : Int) (z : Nat) :
    allocator q [1, 0, z] = -1 ∨ allocator q [1, 0, z] = 0 := by
  have ht : toInt 0 = 0 := by decide
  have hr : List.range 1 = [0] := rfl
  rcases hs with rfl | rfl
  · simp only [bestFit, List.getD_cons_zero, hr, List.foldl_cons, List.foldl_nil,
      bestFitStep]
    split_ifs
    · right
      simpa using ht
    · left
      rfl
  · simp only [worstFit, List.getD_cons_zero, hr, List.foldl_cons, List.foldl_nil,
      worstFitStep]
    split_ifs
    · right
      simpa using ht
    · left
      rfl

/-- Round trip without wrap-around: on a fresh arena, when
`sizeInBytes + wordSize - 1` does not exceed the range of `size_t`, `allocate`
followed by `free` of the returned pointer leaves the single free block
`(0, n)`. -/
theorem round_trip_no_wrap (w n arena sizeInBytes : Nat) (allocator : Allocator)
    (hs : allocator = bestFit ∨ allocator = worstFit) (hw : 0 < w) (hn : n < sizeMod)
    (ha0 : arena ≠ 0) (ha : arena < sizeMod) (hwrap : sizeInBytes + w ≤ sizeMod) :
    (free (allocate (initialise (construct w allocator) n arena) sizeInBytes).2
      (allocate (initialise (construct w allocator) n arena) sizeInBytes).1).blocksHead =
      [⟨0, n, true⟩] := by
  rcases allocate_cases (initialise (construct w allocator) n arena) sizeInBytes with
    h | ⟨list, blocks, _, hN, hl, hne, hb, h⟩
  · rw [h]
    simp [free, initialise]
  · rw [h]
    have hlist : list = [1, 0, n % u16Mod] := by
      simp [getList, initialise, countHoles, holeEntries, toUInt16, u16Mod] at hl
      simp [← hl, u16Mod]
    have hfld : (initialise (construct w allocator) n arena).allocator_ = allocator := rfl
    have hws : (initialise (construct w allocator) n arena).wordSize_ = w := rfl
    have hbl : (initialise (construct w allocator) n arena).blocksHead = [⟨0, n, true⟩] := rfl
    rw [hfld, hws, hlist] at hne hb ⊢
    rw [hbl] at hb
    have hsw := (builtin_single allocator hs
      (toInt (requiredWordsOf w sizeInBytes)) (n % u16Mod)).resolve_left hne
    rw [hsw] at hb ⊢
    rw [requiredWordsOf_eq w sizeInBytes hN hwrap] at hb
    have hr1 : 1 ≤ (sizeInBytes + w - 1) / w :=
      (Nat.one_le_div_iff hw).2 (by omega)
    have hr2 : (sizeInBytes + w - 1) / w * w ≤ sizeInBytes + w - 1 := Nat.div_mul_le_self _ _
    generalize (sizeInBytes + w - 1) / w = r at hb hr1 hr2
    have hrw : w ≤ r * w := Nat.le_mul_of_pos_left w hr1
    have hrlt : r < sizeMod := by
      have : r * 1 ≤ r * w := Nat.mul_le_mul_left r hw
      omega
    have haddr : addressOf (initialise (construct w allocator) n arena) 0 = arena := by
      have h0 : toUnsigned 0 = 0 := by decide
      simp only [addressOf, h0, Nat.zero_mul, Nat.zero_mod, add64, Nat.add_zero, initialise]
      exact Nat.mod_eq_of_lt ha
    rw [haddr]
    have hsub : sub64 arena arena = 0 := by
      have := sub64_add_left arena 0 ha (by decide)
      simpa using this
    have hz : toSizeT 0 = 0 := by decide
    have hmulr : mul64 r w = r * w := mul64_eq (by omega)
    simp only [carve, fits, hz, Bool.true_and, le_refl, decide_True, add64, Nat.zero_add,
      Nat.mod_eq_of_lt hrlt, Nat.mod_eq_of_lt hn] at hb
    split_ifs at hb with hfit
    · simp only [decide_eq_true_eq] at hfit
      simp only [Option.some.injEq] at hb
      subst hb
      have hfree : ∀ (m2 : MemoryManager), m2.memoryStart_ = arena → m2.wordSize_ = w →
          (free m2 arena).blocksHead = freeLoop w 0 [] m2.blocksHead := by
        intro m2 h1 h2
        unfold free
        rw [if_neg (by rw [h1]; omega), h1, h2, hsub]
      rw [hfree _ rfl rfl]
      unfold carveBlock
      split_ifs with hgt
      · have hh : hit w 0 ⟨0, r, false⟩ = true := by
          simp only [hit, Bool.not_false, Bool.true_and, mul64, Nat.zero_mul, Nat.zero_mod,
            le_refl, decide_True, add64, Nat.zero_add, Nat.mod_mod]
          rw [Nat.mod_eq_of_lt (by omega)]
          simp only [decide_eq_true_eq]
          omega
        have e1 : add64 0 r = r := by
          simp only [add64, Nat.zero_add]
          exact Nat.mod_eq_of_lt hrlt
        have e2 : sub64 n r = n - r := sub64_eq (by omega) hn
        have e3 : add64 r (n - r) = n := by
          rw [add64_eq (by omega)]
          omega
        simp [freeLoop, hh, mergeHoles, mergeNext, e1, e2, e3]
      · have hrn : n = r := by
          simp only at hgt
          omega
        subst hrn
        have hh : hit w 0 ⟨0, n, true⟩ = false := by
          simp [hit]
        have hh2 : hit w 0 ⟨0, n, false⟩ = true := by
          simp only [hit, Bool.not_false, Bool.true_and, mul64, Nat.zero_mul, Nat.zero_mod,
            le_refl, decide_True, add64, Nat.zero_add, Nat.mod_mod]
          rw [Nat.mod_eq_of_lt (by omega)]
          simp only [decide_eq_true_eq]
          omega
        simp [freeLoop, hh2, mergeHoles, mergeNext]
    · simp at hb

/-! ## A successful allocation with a built-in strategy -/

/-- Each built-in strategy returns -1 or the start entry of one of the holes it
was shown, and that hole passed the size test. -/
theorem builtin_pick (allocator : Allocator)
    (hs : allocator = bestFit ∨ allocator = worstFit) (q : Int) (c : Nat)
    (entries : List Nat) (hne : allocator q (c :: entries) ≠ -1) :
    ∃ i, i < c ∧ allocator q (c :: entries) = toInt (entries.getD (i * 2) 0) ∧
      toSizeT q ≤ entries.getD (i * 2 + 1) 0 := by
  have key : ∀ (f : Int × Nat → Nat → Int × Nat),
      (∀ acc i, f acc i = acc ∨
        (f acc i = (toInt (entries.getD (i * 2) 0), entries.getD (i * 2 + 1) 0) ∧
          toSizeT q ≤ entries.getD (i * 2 + 1) 0)) →
      ∀ (is : List Nat), (∀ i ∈ is, i < c) → ∀ acc : Int × Nat,
        (acc.1 = -1 ∨ ∃ i, i < c ∧ acc.1 = toInt (entries.getD (i * 2) 0) ∧
          toSizeT q ≤ entries.getD (i * 2 + 1) 0) →
        ((is.foldl f acc).1 = -1 ∨ ∃ i, i < c ∧
          (is.foldl f acc).1 = toInt (entries.getD (i * 2) 0) ∧
          toSizeT q ≤ entries.getD (i * 2 + 1) 0) := by
    intro f hf is
    induction is with
    | nil =>
      intro _ acc hacc
      exact hacc
    | cons j rest ih =>
      intro hlt acc hacc
      rw [List.foldl_cons]
      apply ih (fun i hi => hlt i (List.mem_cons_of_mem _ hi))
      rcases hf acc j with h | ⟨h, hq⟩
      · rw [h]
        exact hacc
      · rw [h]
        exact Or.inr ⟨j, hlt j (List.mem_cons_self _ _), rfl, hq⟩
  have hidx : ∀ i : Nat, (c :: entries).getD (1 + i * 2) 0 = entries.getD (i * 2) 0 ∧
      (c :: entries).getD (2 + i * 2) 0 = entries.getD (i * 2 + 1) 0 := by
    intro i
    have e1 : 1 + i * 2 = i * 2 + 1 := by ring
    have e2 : 2 + i * 2 = i * 2 + 1 + 1 := by ring
    rw [e1, e2]
    exact ⟨rfl, rfl⟩
  have hrange : ∀ i ∈ List.range c, i < c := fun i hi => List.mem_range.mp hi
  rcases hs with rfl | rfl
  · have hstep : ∀ acc i, bestFitStep q (c :: entries) acc i = acc ∨
        (bestFitStep q (c :: entries) acc i =
            (toInt (entries.getD (i * 2) 0), entries.getD (i * 2 + 1) 0) ∧
          toSizeT q ≤ entries.getD (i * 2 + 1) 0) := by
      intro acc i
      unfold bestFitStep
      simp only [(hidx i).1, (hidx i).2]
      split_ifs with h
      · exact Or.inr ⟨rfl, h.1⟩
      · exact Or.inl rfl
    have h := key _ hstep (List.range c) hrange (-1, sizeMax) (Or.inl rfl)
    exact h.resolve_left hne
  · have hstep : ∀ acc i, worstFitStep q (c :: entries) acc i = acc ∨
        (worstFitStep q (c :: entries) acc i =
            (toInt (entries.getD (i * 2) 0), entries.getD (i * 2 + 1) 0) ∧
          toSizeT q ≤ entries.getD (i * 2 + 1) 0) := by
      intro acc i
      unfold worstFitStep
      simp only [(hidx i).1, (hidx i).2]
      split_ifs with h
      · exact Or.inr ⟨rfl, h.1⟩
      · exact Or.inl rfl
    have h := key _ hstep (List.range c) hrange (-1, 0) (Or.inl rfl)
    exact h.resolve_left hne

/-- The entries of `getList` at position `i` are start and size of a free block
of the list. -/
theorem holeEntries_getD : ∀ (blocks : List MemoryBlock) (i : Nat), i < countHoles blocks →
    ∃ pre b post, blocks = pre ++ b :: post ∧ b.isFree = true ∧
      (holeEntries blocks).getD (i * 2) 0 = toUInt16 b.start ∧
      (holeEntries blocks).getD (i * 2 + 1) 0 = toUInt16 b.size
  | [], i, h => by
    simp [countHoles] at h
  | c :: rest, i, h => by
    by_cases hc : c.isFree = true
    · simp only [countHoles, hc, if_true] at h
      simp only [holeEntries, hc, if_true]
      cases i with
      | zero => exact ⟨[], c, rest, rfl, hc, rfl, rfl⟩
      | succ j =>
        obtain ⟨pre, b, post, e, hb, h1, h2⟩ := holeEntries_getD rest j (by omega)
        refine ⟨c :: pre, b, post, by rw [e]; rfl, hb, ?_, ?_⟩
        · have e1 : (j + 1) * 2 = j * 2 + 1 + 1 := by ring
          rw [e1]
          exact h1
        · have e2 : (j + 1) * 2 + 1 = j * 2 + 1 + 1 + 1 := by ring
          rw [e2]
          exact h2
    · simp only [countHoles, hc, if_false] at h
      simp only [holeEntries, hc, if_false]
      obtain ⟨pre, b, post, e, hb, h1, h2⟩ := holeEntries_getD rest i h
      exact ⟨c :: pre, b, post, by rw [e]; rfl, hb, h1, h2⟩

/-- When the loop of `allocate` succeeds it has carved the first block that
passes its test. -/
theorem carve_some (sw : Int) (r : Nat) : ∀ (l l2 : List MemoryBlock),
    carve sw r l = some l2 →
      ∃ pre x post, l = pre ++ x :: post ∧ fits sw r x = true ∧
        (∀ y ∈ pre, fits sw r y = false) ∧ l2 = pre ++ carveBlock r x ++ post
  | [], l2, h => by
    simp [carve] at h
  | c :: rest, l2, h => by
    simp only [carve] at h
    split_ifs at h with hf
    · simp only [Option.some.injEq] at h
      exact ⟨[], c, rest, rfl, hf, by simp, by rw [← h]; rfl⟩
    · simp only [Option.map_eq_some'] at h
      obtain ⟨l3, h3, rfl⟩ := h
      obtain ⟨pre, x, post, e, hx, hpre, e2⟩ := carve_some sw r rest l3 h3
      refine ⟨c :: pre, x, post, by rw [e]; rfl, hx, ?_, by rw [e2]; rfl⟩
      intro y hy
      rcases List.mem_cons.mp hy with rfl | hy
      · simpa using hf
      · exact hpre y hy

theorem toSizeT_toInt_le (r z : Nat) (hz : z < u16Mod) (h : toSizeT (toInt r) ≤ z) :
    r % uintMod ≤ z := by
  unfold toInt at h
  unfold u16Mod at hz
  split_ifs at h with hlt
  · rw [toSizeT_natCast _ (by unfold uintMod sizeMod at *; omega)] at h
    exact h
  · exfalso
    unfold toSizeT uintMod sizeMod at *
    push_cast at h
    omega

/-- A successful `allocate` with a built-in strategy, in a well formed manager of
at most 65535 words and for a request whose round-up does not wrap: the start
word the strategy picks is the start of a free block `b` of at least the required
size, the new list is the old one with `b` replaced by the allocated block
`(b.start, r)`, followed by the free rest `(b.start + r, b.size - r)` when `b` is
larger, and the returned address is `memoryStart_ + b.start * wordSize_` when
that product fits in 32 bits. -/
theorem allocate_builtin_carves (m : MemoryManager) (sizeInBytes : Nat)
    (hs : m.allocator_ = bestFit ∨ m.allocator_ = worstFit) (hwf : WellFormed m)
    (hsmall : m.sizeInWords_ < u16Mod) (hw : 0 < m.wordSize_)
    (hwrap : sizeInBytes + m.wordSize_ ≤ sizeMod)
    (hsucc : (allocate m sizeInBytes).1 ≠ 0) :
    ∃ list pre b post, getList m = some list ∧ m.blocksHead = pre ++ b :: post ∧
      b.isFree = true ∧
      m.allocator_ (toInt (requiredWordsOf m.wordSize_ sizeInBytes)) list = (b.start : Int) ∧
      1 ≤ requiredWordsOf m.wordSize_ sizeInBytes ∧
      requiredWordsOf m.wordSize_ sizeInBytes ≤ b.size ∧
      (allocate m sizeInBytes).2.blocksHead =
        pre ++ (if b.size = requiredWordsOf m.wordSize_ sizeInBytes then
            [⟨b.start, requiredWordsOf m.wordSize_ sizeInBytes, false⟩]
          else
            [⟨b.start, requiredWordsOf m.wordSize_ sizeInBytes, false⟩,
             ⟨b.start + requiredWordsOf m.wordSize_ sizeInBytes,
              b.size - requiredWordsOf m.wordSize_ sizeInBytes, true⟩]) ++ post ∧
      (b.start * m.wordSize_ < uintMod →
        (allocate m sizeInBytes).1 = m.memoryStart_ + b.start * m.wordSize_) := by
  rcases allocate_cases m sizeInBytes with h | ⟨list, blocks, hready, hN, hl, hne, hb, h⟩
  · rw [h] at hsucc
    exact absurd rfl hsucc
  · obtain ⟨hc, hn, hbase, harena⟩ := hwf
    have hreq := requiredWordsOf_eq m.wordSize_ sizeInBytes hN hwrap
    have hr1 : 1 ≤ requiredWordsOf m.wordSize_ sizeInBytes := by
      rw [hreq]
      exact (Nat.one_le_div_iff hw).2 (by omega)
    have hr2 : requiredWordsOf m.wordSize_ sizeInBytes < sizeMod := by
      rw [hreq]
      have := Nat.div_le_self (sizeInBytes + m.wordSize_ - 1) m.wordSize_
      omega
    rw [h]
    generalize requiredWordsOf m.wordSize_ sizeInBytes = r at hne hb hr1 hr2 ⊢
    -- the list handed to the strategy
    have hlist : list = toUInt16 (countHoles m.blocksHead) :: holeEntries m.blocksHead := by
      unfold getList at hl
      dsimp only at hl
      split_ifs at hl
      exact (Option.some.inj hl).symm
    subst hlist
    obtain ⟨i, hi, hpick, hq⟩ := builtin_pick m.allocator_ hs (toInt r) _ _ hne
    have hcount : i < countHoles m.blocksHead :=
      lt_of_lt_of_le hi (Nat.mod_le _ _)
    obtain ⟨pre0, b, post0, e0, hbfree, hst, hsz⟩ := holeEntries_getD m.blocksHead i hcount
    have hbmem : b ∈ m.blocksHead := by rw [e0]; simp
    have hbb := chain_bounds _ 0 _ hc b hbmem
    have hb16 : toUInt16 b.start = b.start ∧ toUInt16 b.size = b.size := by
      unfold toUInt16
      exact ⟨Nat.mod_eq_of_lt (by omega), Nat.mod_eq_of_lt (by omega)⟩
    rw [hst, hb16.1, toInt_small b.start (by unfold u16Mod at hsmall; omega)] at hpick
    rw [hsz, hb16.2] at hq
    have hrm := toSizeT_toInt_le r b.size (by omega) hq
    rw [hpick] at hb ⊢
    obtain ⟨pre, x, post, e, hfit, _, e2⟩ := carve_some _ r _ _ hb
    have hxmem : x ∈ m.blocksHead := by rw [e]; simp
    have hxb := chain_bounds _ 0 _ hc x hxmem
    have hts : toSizeT (b.start : Int) = b.start :=
      toSizeT_natCast b.start (by omega)
    simp only [fits, hts, Bool.and_eq_true, decide_eq_true_eq] at hfit
    obtain ⟨⟨hxfree, hxs⟩, hxe⟩ := hfit
    rw [add64_eq (by omega : x.start + x.size < sizeMod)] at hxe
    have hrsmall : b.start + r ≤ x.start + x.size ∧ r ≤ b.size := by
      unfold add64 at hxe
      unfold u16Mod at hsmall
      unfold sizeMod at hxe hr2 hn
      unfold uintMod at hrm
      omega
    -- the block the loop stops at is the block the strategy picked
    have hsame : b = x := by
      rw [e] at hbmem hc
      rcases List.mem_append.mp hbmem with hp | hp
      · have := chain_before pre post x 0 _ hc b hp
        omega
      · rcases List.mem_cons.mp hp with rfl | hp
        · rfl
        · have := chain_after pre post x 0 _ hc b hp
          omega
    subst hsame
    refine ⟨_, pre, b, post, hl, e, hbfree, hpick, hr1, hrsmall.2, ?_, ?_⟩
    · show blocks = _
      rw [e2]
      congr 2
      unfold carveBlock
      by_cases hgt : b.size > r
      · rw [if_pos hgt, if_neg (by omega), add64_eq (by omega), sub64_eq (by omega) (by omega)]
      · rw [if_neg hgt, if_pos (by omega)]
        have : b.size = r := by omega
        cases b
        simp only at this hbfree
        simp [this]
    · intro hprod
      show addressOf m (b.start : Int) = _
      have htu : toUnsigned (b.start : Int) = b.start := by
        unfold toUnsigned
        have : ((b.start : Int) % (uintMod : Int)) = ((b.start % uintMod : Nat) : Int) := by
          simp
        rw [this, Int.toNat_ofNat]
        exact Nat.mod_eq_of_lt (by unfold uintMod; unfold u16Mod at hsmall; omega)
      have hlt : b.start + 1 ≤ m.sizeInWords_ := by omega
      have hmul : (b.start + 1) * m.wordSize_ ≤ m.sizeInWords_ * m.wordSize_ :=
        Nat.mul_le_mul_right _ hlt
      have hexp : (b.start + 1) * m.wordSize_ = b.start * m.wordSize_ + m.wordSize_ := by ring
      unfold addressOf
      rw [htu, Nat.mod_eq_of_lt hprod, add64_eq (by omega)]

/-! ## Requests that no hole can hold -/

theorem requiredWordsOf_lt (w sizeInBytes : Nat) : requiredWordsOf w sizeInBytes < sizeMod := by
  unfold requiredWordsOf
  have h1 : sub64 (add64 sizeInBytes w) 1 < sizeMod := by
    unfold sub64
    exact Nat.mod_lt _ (by decide)
  exact lt_of_le_of_lt (Nat.div_le_self _ _) h1

/-- Without wrap-around the words reserved are the ceiling of
`sizeInBytes / wordSize`: the least count whose bytes hold the request. -/
theorem requiredWordsOf_ceil (w sizeInBytes : Nat) (h0 : sizeInBytes ≠ 0) (hw : 0 < w)
    (hwrap : sizeInBytes + w ≤ sizeMod) :
    1 ≤ requiredWordsOf w sizeInBytes ∧
    sizeInBytes ≤ requiredWordsOf w sizeInBytes * w ∧
    (requiredWordsOf w sizeInBytes - 1) * w < sizeInBytes := by
  rw [requiredWordsOf_eq w sizeInBytes h0 hwrap]
  have h1 : 1 ≤ (sizeInBytes + w - 1) / w := (Nat.one_le_div_iff hw).2 (by omega)
  have h2 := Nat.div_add_mod (sizeInBytes + w - 1) w
  have h3 := Nat.mod_lt (sizeInBytes + w - 1) hw
  rw [Nat.mul_comm] at h2
  have h4 : ((sizeInBytes + w - 1) / w - 1) * w = (sizeInBytes + w - 1) / w * w - w := by
    rw [Nat.sub_mul, Nat.one_mul]
  refine ⟨h1, by omega, ?_⟩
  rw [h4]
  have h5 : w ≤ (sizeInBytes + w - 1) / w * w := Nat.le_mul_of_pos_left w h1
  omega

/-- The list `getList` hands to the strategy. -/
theorem getList_some (m : MemoryManager) (list : List Nat) (hl : getList m = some list) :
    list = toUInt16 (countHoles m.blocksHead) :: holeEntries m.blocksHead := by
  unfold getList at hl
  dsimp only at hl
  split_ifs at hl
  exact (Option.some.inj hl).symm

/-- A start word other than -1 returned by a built-in strategy is the 16 bit
start entry of a free block whose 16 bit size entry passed the size test. -/
theorem builtin_pick_block (m : MemoryManager) (q : Int) (list : List Nat)
    (hs : m.allocator_ = bestFit ∨ m.allocator_ = worstFit) (hl : getList m = some list)
    (hne : m.allocator_ q list ≠ -1) :
    ∃ b ∈ m.blocksHead, b.isFree = true ∧
      m.allocator_ q list = ((toUInt16 b.start : Nat) : Int) ∧
      toSizeT q ≤ toUInt16 b.size := by
  have hlist := getList_some m list hl
  subst hlist
  obtain ⟨i, hi, hpick, hq⟩ := builtin_pick m.allocator_ hs q _ _ hne
  have hcount : i < countHoles m.blocksHead := lt_of_lt_of_le hi (Nat.mod_le _ _)
  obtain ⟨pre0, b, post0, e0, hbfree, hst, hsz⟩ := holeEntries_getD m.blocksHead i hcount
  refine ⟨b, by rw [e0]; simp, hbfree, ?_, ?_⟩
  · rw [hpick, hst]
    have : toUInt16 b.start < u16Mod := Nat.mod_lt _ (by decide)
    exact toInt_small _ (by unfold u16Mod at this; omega)
  · rw [← hsz]
    exact hq

/-- With a built-in strategy, a request whose word count (as `allocate` computes
it) exceeds the size of every free block gets `nullptr` and changes nothing. -/
theorem allocate_no_fit (m : MemoryManager) (sizeInBytes : Nat)
    (hs : m.allocator_ = bestFit ∨ m.allocator_ = worstFit)
    (hc : Chain m.blocksHead 0 m.sizeInWords_) (hn : m.sizeInWords_ < sizeMod)
    (hbig : ∀ b ∈ m.blocksHead, b.isFree = true →
      b.size < requiredWordsOf m.wordSize_ sizeInBytes) :
    allocate m sizeInBytes = (0, m) := by
  rcases allocate_cases m sizeInBytes with h | ⟨list, blocks, _, _, hl, hne, hb, _⟩
  · exact h
  · exfalso
    have hr := requiredWordsOf_lt m.wordSize_ sizeInBytes
    generalize requiredWordsOf m.wordSize_ sizeInBytes = r at hne hb hbig hr
    obtain ⟨b, _, _, hpick, hq⟩ := builtin_pick_block m (toInt r) list hs hl hne
    have hu : toUInt16 b.start < u16Mod := Nat.mod_lt _ (by decide)
    have hz : toUInt16 b.size < u16Mod := Nat.mod_lt _ (by decide)
    have hrm := toSizeT_toInt_le r _ hz hq
    rw [hpick] at hb
    obtain ⟨pre, x, post, e, hfit, _, _⟩ := carve_some _ r _ _ hb
    have hxmem : x ∈ m.blocksHead := by rw [e]; simp
    have hxb := chain_bounds _ 0 _ hc x hxmem
    have hts : toSizeT ((toUInt16 b.start : Nat) : Int) = toUInt16 b.start :=
      toSizeT_natCast _ (by unfold u16Mod at hu; unfold sizeMod; omega)
    simp only [fits, hts, Bool.and_eq_true, decide_eq_true_eq] at hfit
    obtain ⟨⟨hxfree, hxs⟩, hxe⟩ := hfit
    rw [add64_eq (by omega : x.start + x.size < sizeMod)] at hxe
    have hsmall := hbig x hxmem hxfree
    unfold add64 at hxe
    unfold u16Mod at hu hz
    unfold sizeMod at hxe hr hn
    unfold uintMod at hrm
    omega

/-! ## getList and dumpMemoryMap as maps over the free blocks -/

theorem countHoles_eq_length : ∀ (blocks : List MemoryBlock),
    countHoles blocks = (blocks.filter (fun b => b.isFree)).length
  | [] => rfl
  | b :: rest => by
    have ih := countHoles_eq_length rest
    by_cases hb : b.isFree = true
    · simp [countHoles, hb, ih]
    · simp [countHoles, hb, ih]

theorem holeEntries_eq_flatMap : ∀ (blocks : List MemoryBlock),
    holeEntries blocks =
      (blocks.filter (fun b => b.isFree)).flatMap
        (fun b => [toUInt16 b.start, toUInt16 b.size])
  | [] => rfl
  | b :: rest => by
    have ih := holeEntries_eq_flatMap rest
    by_cases hb : b.isFree = true
    · simp [holeEntries, hb, ih]
    · simp [holeEntries, hb, ih]

theorem intercalate_cons_flatMap (sep x : List Char) : ∀ (xs : List (List Char)),
    List.intercalate sep (x :: xs) = x ++ xs.flatMap (fun r => sep ++ r)
  | [] => by
    simp [List.intercalate, List.intersperse]
  | y :: ys => by
    have ih := intercalate_cons_flatMap sep y ys
    simp only [List.intercalate, List.intersperse, List.flatten_cons, List.flatMap_cons] at ih ⊢
    rw [ih]
    simp

theorem dumpLoop_rest : ∀ (blocks : List MemoryBlock) (out : List Char),
    dumpLoop blocks false out =
      out ++ ((blocks.filter (fun b => b.isFree)).map renderBlock).flatMap
        (fun r => " - ".toList ++ r)
  | [], out => by
    simp [dumpLoop]
  | b :: rest, out => by
    by_cases hb : b.isFree = true
    · simp [dumpLoop, hb, dumpLoop_rest rest]
    · simp [dumpLoop, hb, dumpLoop_rest rest]

theorem dumpLoop_first : ∀ (blocks : List MemoryBlock),
    dumpLoop blocks true [] =
      List.intercalate " - ".toList ((blocks.filter (fun b => b.isFree)).map renderBlock)
  | [] => by
    simp [dumpLoop, List.intercalate]
  | b :: rest => by
    by_cases hb : b.isFree = true
    · simp only [dumpLoop, hb, if_true, Bool.not_true, Bool.false_eq_true, if_false,
        List.nil_append, List.filter_cons_of_pos, List.map_cons]
      rw [dumpLoop_rest, intercalate_cons_flatMap]
    · simp only [dumpLoop, hb, Bool.false_eq_true, if_false]
      rw [dumpLoop_first rest]
      simp [hb]

theorem entries_exact : ∀ (frees : List MemoryBlock),
    (∀ b ∈ frees, b.start < u16Mod ∧ b.size < u16Mod) →
      frees.flatMap (fun b => [toUInt16 b.start, toUInt16 b.size]) =
        (frees.map (fun b => (b.start, b.size))).flatMap (fun h => [h.1, h.2])
  | [], _ => rfl
  | b :: rest, h => by
    have ih := entries_exact rest (fun x hx => h x (List.mem_cons_of_mem _ hx))
    have hb := h b (List.mem_cons_self _ _)
    rw [List.flatMap_cons, List.map_cons, List.flatMap_cons, ih]
    simp only [toUInt16, Nat.mod_eq_of_lt hb.1, Nat.mod_eq_of_lt hb.2]

/-! ## What the loop of allocate marks -/

theorem carve_first (sw : Int) (r : Nat) (R : MemoryBlock) (post : List MemoryBlock)
    (hR : fits sw r R = true) : ∀ (pre : List MemoryBlock),
    (∀ y ∈ pre, fits sw r y = false) →
      carve sw r (pre ++ R :: post) = some (pre ++ carveBlock r R ++ post)
  | [], _ => by
    simp [carve, hR]
  | c :: pre, h => by
    have hc : fits sw r c = false := h c (List.mem_cons_self _ _)
    have ih := carve_first sw r R post hR pre (fun y hy => h y (List.mem_cons_of_mem _ hy))
    rw [List.cons_append]
    simp only [carve, hc, Bool.false_eq_true, if_false]
    rw [ih]
    simp

theorem allocatedAt_append (l1 l2 : List MemoryBlock) (k : Nat) :
    allocatedAt (l1 ++ l2) k = (allocatedAt l1 k || allocatedAt l2 k) := by
  unfold allocatedAt
  exact List.any_append

theorem allocatedAt_cons (b : MemoryBlock) (l : List MemoryBlock) (k : Nat) :
    allocatedAt (b :: l) k =
      ((!b.isFree && decide (b.start ≤ k) && decide (k < b.start + b.size)) ||
        allocatedAt l k) := by
  unfold allocatedAt
  rfl

/-- The words the carved block makes allocated: the first `r` words of the free
block `R`, for `r` at most the size of `R`. -/
theorem allocatedAt_carveBlock (r : Nat) (R : MemoryBlock) (k : Nat) (hfree : R.isFree = true)
    (hr : r ≤ R.size) (hb : R.start + R.size < sizeMod) :
    carveBlock r R = (if R.size = r then [⟨R.start, r, false⟩]
      else [⟨R.start, r, false⟩, ⟨R.start + r, R.size - r, true⟩]) ∧
    allocatedAt (carveBlock r R) k = (decide (R.start ≤ k) && decide (k < R.start + r)) := by
  unfold carveBlock
  by_cases hgt : R.size > r
  · rw [if_pos hgt, if_neg (by omega), add64_eq (by omega), sub64_eq (by omega) (by omega)]
    refine ⟨rfl, ?_⟩
    simp [allocatedAt]
  · have he : R.size = r := by omega
    rw [if_neg hgt, if_pos he]
    constructor
    · cases R
      simp only at he hfree
      simp [he]
    · simp [allocatedAt, he]

/-! ## The bits of getBitmap -/

theorem setWordBit_length (bm : List Nat) (w : Nat) :
    (setWordBit bm w).length = bm.length := by
  simp [setWordBit]

theorem setWordBit_head (bm : List Nat) (w j : Nat) (hj : j < 2) :
    (setWordBit bm w).getD j 0 = bm.getD j 0 := by
  unfold setWordBit
  simp only [List.getD_eq_getElem?_getD]
  rw [List.getElem?_set_ne (by omega)]

theorem setWordBit_wordBit (bm : List Nat) (w k : Nat) (hin : 2 + w / 8 < bm.length) :
    wordBit (setWordBit bm w) k = (wordBit bm k || decide (k = w)) := by
  unfold wordBit setWordBit
  simp only [List.getD_eq_getElem?_getD]
  by_cases hk : w / 8 = k / 8
  · have h256 : (256 : Nat) = 2 ^ 8 := by decide
    rw [← hk, List.getElem?_set, if_pos rfl, if_pos hin]
    simp only [Option.getD_some, h256, Nat.testBit_mod_two_pow, Nat.testBit_or,
      Nat.one_shiftLeft, Nat.testBit_two_pow]
    have hlt : k % 8 < 8 := Nat.mod_lt _ (by decide)
    have hiff : (w % 8 = k % 8) ↔ (k = w) := by omega
    simp only [hlt, decide_True, Bool.true_and, hiff]
  · rw [List.getElem?_set_ne (by omega)]
    have hne : ¬ (k = w) := by
      intro h
      exact hk (by rw [h])
    simp [hne]

/-- The inner loop of `getBitmap` sets the bits of the words it runs over and
no other bit. -/
theorem markRange (k : Nat) : ∀ (c s : Nat) (bm : List Nat),
    (∀ w, w < s + c → 2 + w / 8 < bm.length) →
      ((List.range' s c).foldl setWordBit bm).length = bm.length ∧
      ((List.range' s c).foldl setWordBit bm).getD 0 0 = bm.getD 0 0 ∧
      ((List.range' s c).foldl setWordBit bm).getD 1 0 = bm.getD 1 0 ∧
      wordBit ((List.range' s c).foldl setWordBit bm) k =
        (wordBit bm k || (decide (s ≤ k) && decide (k < s + c)))
  | 0, s, bm, _ => by
    simp only [List.range'_zero, List.foldl_nil, true_and]
    cases hb : wordBit bm k <;> simp
  | c + 1, s, bm, hin => by
    rw [List.range'_succ, List.foldl_cons]
    have ih := markRange k c (s + 1) (setWordBit bm s) (by
      intro w hw
      rw [setWordBit_length]
      exact hin w (by omega))
    rw [setWordBit_length, setWordBit_head bm s 0 (by decide),
      setWordBit_head bm s 1 (by decide),
      setWordBit_wordBit bm s k (hin s (by omega))] at ih
    refine ⟨ih.1, ih.2.1, ih.2.2.1, ?_⟩
    rw [ih.2.2.2]
    by_cases h1 : k = s
    · subst h1
      simp
    · cases hb : wordBit bm k
      · simp only [Bool.false_or, h1, decide_False]
        congr 1
        · simp only [decide_eq_decide]
          omega
        · simp only [decide_eq_decide]
          omega
      · simp

/-- The outer loop of `getBitmap` sets exactly the bits of the words that lie in
an allocated block, for blocks inside the bitmap. -/
theorem markBlocks (n k : Nat) (hn : n < sizeMod) : ∀ (blocks : List MemoryBlock)
    (bm : List Nat), (∀ b ∈ blocks, b.start + b.size ≤ n) →
    (∀ w, w < n → 2 + w / 8 < bm.length) →
      (blocks.foldl
        (fun bitmap current => if !current.isFree then markBlock bitmap current else bitmap)
        bm).length = bm.length ∧
      (blocks.foldl
        (fun bitmap current => if !current.isFree then markBlock bitmap current else bitmap)
        bm).getD 0 0 = bm.getD 0 0 ∧
      (blocks.foldl
        (fun bitmap current => if !current.isFree then markBlock bitmap current else bitmap)
        bm).getD 1 0 = bm.getD 1 0 ∧
      wordBit (blocks.foldl
        (fun bitmap current => if !current.isFree then markBlock bitmap current else bitmap)
        bm) k = (wordBit bm k || allocatedAt blocks k)
  | [], bm, _, _ => by
    simp [allocatedAt]
  | b :: rest, bm, hb, hin => by
    rw [List.foldl_cons, allocatedAt_cons]
    have hbb := hb b (List.mem_cons_self _ _)
    have hrest : ∀ x ∈ rest, x.start + x.size ≤ n :=
      fun x hx => hb x (List.mem_cons_of_mem _ hx)
    by_cases hfree : b.isFree = true
    · simp only [hfree, Bool.not_true, Bool.false_eq_true, if_false, Bool.false_and,
        Bool.false_or]
      exact markBlocks n k hn rest bm hrest hin
    · have hf : b.isFree = false := by simpa using hfree
      simp only [hf, Bool.not_false, if_true, Bool.true_and]
      have hcount : add64 b.start b.size - b.start = b.size := by
        rw [add64_eq (by omega)]
        omega
      have hm := markRange k b.size b.start bm (fun w hw => hin w (by omega))
      have ih := markBlocks n k hn rest (markBlock bm b) hrest (by
        intro w hw
        unfold markBlock
        rw [hcount, hm.1]
        exact hin w hw)
      unfold markBlock at ih ⊢
      rw [hcount] at ih ⊢
      rw [hm.1, hm.2.1, hm.2.2.1, hm.2.2.2] at ih
      refine ⟨ih.1, ih.2.1, ih.2.2.1, ?_⟩
      rw [ih.2.2.2, Bool.or_assoc]

theorem allocatedAt_outside (n k : Nat) (hk : n ≤ k) : ∀ (blocks : List MemoryBlock),
    (∀ b ∈ blocks, b.start + b.size ≤ n) → allocatedAt blocks k = false
  | [], _ => rfl
  | b :: rest, h => by
    have hb := h b (List.mem_cons_self _ _)
    rw [allocatedAt_cons, allocatedAt_outside n k hk rest
      (fun x hx => h x (List.mem_cons_of_mem _ hx))]
    have : ¬ (k < b.start + b.size) := by omega
    simp [this]

/-- The array `getBitmap` returns, for a block list that covers the words 0 to
`sizeInWords_` and a byte count that does not wrap: its length, its two header
bytes, and the bit of every word. -/
theorem getBitmap_spec (m : MemoryManager) (k : Nat)
    (hc : Chain m.blocksHead 0 m.sizeInWords_) (hn : m.sizeInWords_ + 7 < sizeMod) :
    (getBitmap m).length = 2 + (m.sizeInWords_ + 7) / 8 ∧
    (getBitmap m).getD 0 0 = (m.sizeInWords_ + 7) / 8 % 256 ∧
    (getBitmap m).getD 1 0 = (m.sizeInWords_ + 7) / 8 / 256 % 256 ∧
    wordBit (getBitmap m) k = allocatedAt m.blocksHead k := by
  have hbs : add64 m.sizeInWords_ 7 = m.sizeInWords_ + 7 := add64_eq hn
  have hbnd : ∀ b ∈ m.blocksHead, b.start + b.size ≤ m.sizeInWords_ :=
    fun b hb => (chain_bounds _ 0 _ hc b hb).2
  have h := markBlocks m.sizeInWords_ k (by omega) m.blocksHead
    ((m.sizeInWords_ + 7) / 8 % 256 :: (m.sizeInWords_ + 7) / 8 / 256 % 256 ::
      List.replicate ((m.sizeInWords_ + 7) / 8) 0) hbnd (by
      intro w hw
      simp only [List.length_cons, List.length_replicate]
      omega)
  have h0 : wordBit ((m.sizeInWords_ + 7) / 8 % 256 :: (m.sizeInWords_ + 7) / 8 / 256 % 256 ::
      List.replicate ((m.sizeInWords_ + 7) / 8) 0) k = false := by
    unfold wordBit
    have e : 2 + k / 8 = k / 8 + 1 + 1 := by omega
    rw [e, List.getD_cons_succ, List.getD_cons_succ, List.getD_eq_getElem?_getD,
      List.getElem?_replicate]
    split_ifs <;> simp
  unfold getBitmap
  simp only [hbs]
  rw [h0, Bool.false_or] at h
  refine ⟨?_, h.2.1, h.2.2.1, h.2.2.2⟩
  rw [h.1]
  simp only [List.length_cons, List.length_replicate]
  omega

/-! ## Where the fall-back path cannot be reached -/

theorem carve_isSome (sw : Int) (r : Nat) : ∀ (l : List MemoryBlock),
    (∃ b ∈ l, fits sw r b = true) → (carve sw r l).isSome = true
  | [], h => by
    simp at h
  | c :: rest, h => by
    simp only [carve]
    split_ifs with hc
    · rfl
    · have hrest : ∃ b ∈ rest, fits sw r b = true := by
        obtain ⟨b, hb, hfit⟩ := h
        rcases List.mem_cons.mp hb with rfl | hb
        · exact absurd hfit hc
        · exact ⟨b, hb, hfit⟩
      have ih := carve_isSome sw r rest hrest
      simp [ih]

/-- In a manager of at most 65535 words whose blocks lie end to end, with a
built-in strategy and a required word count that fits the `int` parameter of the
strategy, `allocate` does not reach its fall-back path. -/
theorem no_fallback (m : MemoryManager) (sizeInBytes : Nat)
    (hs : m.allocator_ = bestFit ∨ m.allocator_ = worstFit)
    (hc : Chain m.blocksHead 0 m.sizeInWords_) (hsmall : m.sizeInWords_ < u16Mod)
    (hr : requiredWordsOf m.wordSize_ sizeInBytes < 2147483648) :
    fallbackReached m sizeInBytes = false := by
  unfold fallbackReached
  split_ifs
  · rfl
  · dsimp only
    split
    · rfl
    · rename_i list hl
      split_ifs with h1
      · rfl
      · generalize requiredWordsOf m.wordSize_ sizeInBytes = r at hr h1 ⊢
        obtain ⟨b, hbmem, hbfree, hpick, hq⟩ := builtin_pick_block m (toInt r) list hs hl h1
        have hbb := chain_bounds _ 0 _ hc b hbmem
        have hb16 : toUInt16 b.start = b.start ∧ toUInt16 b.size = b.size := by
          unfold toUInt16
          exact ⟨Nat.mod_eq_of_lt (by omega), Nat.mod_eq_of_lt (by omega)⟩
        rw [hb16.1] at hpick
        rw [hb16.2, toInt_small r hr, toSizeT_natCast r (by unfold sizeMod; omega)] at hq
        have hts : toSizeT (b.start : Int) = b.start :=
          toSizeT_natCast b.start (by unfold u16Mod at hsmall; unfold sizeMod; omega)
        have hfit : fits (b.start : Int) r b = true := by
          unfold u16Mod at hsmall
          simp only [fits, hts, hbfree, Bool.true_and, Bool.and_eq_true, decide_eq_true_eq,
            le_refl, true_and]
          rw [add64_eq (by unfold sizeMod; omega), add64_eq (by unfold sizeMod; omega)]
          omega
        rw [hpick]
        have := carve_isSome (b.start : Int) r m.blocksHead ⟨b, hbmem, hfit⟩
        cases hcarve : carve (b.start : Int) r m.blocksHead with
        | none => simp [hcarve] at this
        | some l => rfl

/-- A successful `allocate` with a built-in strategy, in a well formed manager of
at most 65535 words whose arena has fewer than `2^32` bytes, for a request whose
round-up does not wrap: the returned address is that of a word `s`, the request
fits in the `r` words from `s` on, these lie inside the arena, and each of them
was free before the call and is allocated after it. -/
theorem allocate_safe (m : MemoryManager) (sizeInBytes : Nat)
    (hs : m.allocator_ = bestFit ∨ m.allocator_ = worstFit) (hwf : WellFormed m)
    (hsmall : m.sizeInWords_ < u16Mod) (hw : 0 < m.wordSize_)
    (hwrap : sizeInBytes + m.wordSize_ ≤ sizeMod)
    (hbytes : m.sizeInWords_ * m.wordSize_ < uintMod)
    (hsucc : (allocate m sizeInBytes).1 ≠ 0) :
    ∃ s r, (allocate m sizeInBytes).1 = m.memoryStart_ + s * m.wordSize_ ∧
      sizeInBytes ≤ r * m.wordSize_ ∧ s + r ≤ m.sizeInWords_ ∧
      ∀ k, s ≤ k → k < s + r →
        freeAt m.blocksHead k = true ∧
          allocatedAt (allocate m sizeInBytes).2.blocksHead k = true := by
  obtain ⟨list, pre, b, post, _, e, hbfree, _, hr1, hrb, hnew, haddr⟩ :=
    allocate_builtin_carves m sizeInBytes hs hwf hsmall hw hwrap hsucc
  have hN : sizeInBytes ≠ 0 := by
    intro h0
    apply hsucc
    simp [allocate, h0]
  have hceil := requiredWordsOf_ceil m.wordSize_ sizeInBytes hN hw hwrap
  have hbb := chain_bounds _ 0 _ hwf.1 b (by rw [e]; simp)
  have hmul : b.start * m.wordSize_ ≤ m.sizeInWords_ * m.wordSize_ :=
    Nat.mul_le_mul_right _ (by omega)
  refine ⟨b.start, requiredWordsOf m.wordSize_ sizeInBytes, haddr (by omega), hceil.2.1,
    by omega, ?_⟩
  intro k hk1 hk2
  constructor
  · rw [e]
    unfold freeAt
    simp only [List.any_append, List.any_cons, hbfree, Bool.true_and]
    have h1 : decide (b.start ≤ k) = true := by simpa using hk1
    have h2 : decide (k < b.start + b.size) = true := by
      simp only [decide_eq_true_eq]
      omega
    simp [h1, h2]
  · rw [hnew, allocatedAt_append, allocatedAt_append]
    have : allocatedAt (if b.size = requiredWordsOf m.wordSize_ sizeInBytes then
          [⟨b.start, requiredWordsOf m.wordSize_ sizeInBytes, false⟩]
        else
          [⟨b.start, requiredWordsOf m.wordSize_ sizeInBytes, false⟩,
           ⟨b.start + requiredWordsOf m.wordSize_ sizeInBytes,
            b.size - requiredWordsOf m.wordSize_ sizeInBytes, true⟩]) k = true := by
      have h1 : decide (b.start ≤ k) = true := by simpa using hk1
      have h2 : decide (k < b.start + requiredWordsOf m.wordSize_ sizeInBytes) = true := by
        simpa using hk2
      split_ifs <;> simp [allocatedAt, h1, h2]
    simp [this]

/-! ## No empty block without wrap-around -/

theorem carveBlock_pos (r : Nat) (R : MemoryBlock) (hr : 1 ≤ r) (hR : 1 ≤ R.size)
    (hlt : R.size < sizeMod) : ∀ x ∈ carveBlock r R, 1 ≤ x.size := by
  unfold carveBlock
  split_ifs with hgt
  · intro x hx
    have hs : sub64 R.size r = R.size - r := sub64_eq (by omega) hlt
    simp only [List.mem_cons, List.mem_singleton, List.not_mem_nil, or_false] at hx
    rcases hx with rfl | rfl
    · exact hr
    · simp only [hs]
      omega
  · intro x hx
    simp only [List.mem_singleton] at hx
    subst hx
    exact hR

theorem carve_pos (sw : Int) (r : Nat) (l l2 : List MemoryBlock)
    (h : carve sw r l = some l2) (hr : 1 ≤ r)
    (hl : ∀ x ∈ l, 1 ≤ x.size ∧ x.size < sizeMod) : ∀ x ∈ l2, 1 ≤ x.size := by
  obtain ⟨pre, R, post, e, _, _, e2⟩ := carve_some sw r l l2 h
  subst e e2
  intro x hx
  simp only [List.mem_append] at hx
  rcases hx with (hx | hx) | hx
  · exact (hl x (by simp [hx])).1
  · have hR := hl R (by simp)
    exact carveBlock_pos r R hr hR.1 hR.2 x hx
  · exact (hl x (by simp [hx])).1

theorem mergeNext_pos (before after : List MemoryBlock) (b : MemoryBlock) (s n : Nat)
    (hn : n < sizeMod) (hc : Chain (before.reverse ++ b :: after) s n)
    (hp : ∀ x ∈ before.reverse ++ b :: after, 1 ≤ x.size) :
    ∀ x ∈ mergeNext before b after, 1 ≤ x.size := by
  unfold mergeNext
  split
  · rename_i next after2
    split_ifs with hfree
    · rw [chain_append] at hc
      obtain ⟨k, _, h2⟩ := hc
      simp only [Chain] at h2
      have hle := chain_le after2 _ _ h2.2.2
      have ha : add64 b.size next.size = b.size + next.size := add64_eq (by omega)
      have hb := hp b (by simp)
      intro x hx
      simp only [List.mem_append, List.mem_cons] at hx
      rcases hx with hx | rfl | hx
      · exact hp x (by simp [hx])
      · simp only [ha]
        omega
      · exact hp x (by simp [hx])
    · exact hp
  · exact hp

theorem mergeHoles_pos (before after : List MemoryBlock) (b : MemoryBlock) (s n : Nat)
    (hn : n < sizeMod) (hc : Chain (before.reverse ++ b :: after) s n)
    (hp : ∀ x ∈ before.reverse ++ b :: after, 1 ≤ x.size) :
    ∀ x ∈ mergeHoles before b after, 1 ≤ x.size := by
  unfold mergeHoles
  split
  · rename_i previous before2
    split_ifs with hfree
    · rw [List.reverse_cons, List.append_assoc, chain_append] at hc
      obtain ⟨k, _, h2⟩ := hc
      simp only [List.singleton_append, Chain] at h2
      have hle := chain_le after _ _ h2.2.2
      have ha : add64 previous.size b.size = previous.size + b.size := add64_eq (by omega)
      have hb := hp b (by simp)
      intro x hx
      simp only [List.mem_append, List.mem_cons] at hx
      rcases hx with hx | rfl | hx
      · exact hp x (by simp [hx])
      · simp only [ha]
        omega
      · exact hp x (by simp [hx])
    · exact mergeNext_pos _ after b s n hn hc hp
  · exact mergeNext_pos _ after b s n hn hc hp

theorem freeLoop_pos (w off s n : Nat) (hn : n < sizeMod) :
    ∀ (after before : List MemoryBlock), Chain (before.reverse ++ after) s n →
      (∀ x ∈ before.reverse ++ after, 1 ≤ x.size) →
      ∀ x ∈ freeLoop w off before after, 1 ≤ x.size
  | [], before, _, hp => by
    simpa [freeLoop] using hp
  | current :: after, before, hc, hp => by
    simp only [freeLoop]
    split_ifs with hh
    · apply mergeHoles_pos before after _ s n hn (chain_retag _ _ current true s n hc)
      intro x hx
      simp only [List.mem_append, List.mem_cons] at hx
      rcases hx with hx | rfl | hx
      · exact hp x (by simp [hx])
      · exact hp current (by simp)
      · exact hp x (by simp [hx])
    · apply freeLoop_pos w off s n hn after (current :: before)
      · simpa using hc
      · intro x hx
        apply hp x
        simp only [List.reverse_cons, List.append_assoc, List.singleton_append] at hx
        exact hx

/-- Every block keeps a size of at least one word as long as no request wraps in
the round-up of `allocate`. -/
theorem run_pos (n : Nat) (hn : n < sizeMod) : ∀ (calls : List Call) (m : MemoryManager),
    0 < m.wordSize_ → Chain m.blocksHead 0 n → (∀ x ∈ m.blocksHead, 1 ≤ x.size) →
    (∀ c ∈ calls, noWrap m.wordSize_ c) →
      ∀ x ∈ (run m calls).blocksHead, 1 ≤ x.size
  | [], _, _, _, hp, _ => hp
  | Call.allocate sizeInBytes :: calls, m, hw, hc, hp, hcalls => by
    have hfld := allocate_fields m sizeInBytes
    have hwrap : sizeInBytes + m.wordSize_ ≤ sizeMod := hcalls _ (List.mem_cons_self _ _)
    have hstep : Chain (allocate m sizeInBytes).2.blocksHead 0 n ∧
        ∀ x ∈ (allocate m sizeInBytes).2.blocksHead, 1 ≤ x.size := by
      rcases allocate_cases m sizeInBytes with h | ⟨list, blocks, _, hN, _, _, hb, h⟩
      · rw [h]
        exact ⟨hc, hp⟩
      · rw [h]
        refine ⟨carve_chain _ _ _ 0 n hn hc blocks hb, ?_⟩
        apply carve_pos _ _ _ _ hb (requiredWordsOf_ceil _ _ hN hw hwrap).1
        intro x hx
        have := chain_bounds _ 0 n hc x hx
        exact ⟨hp x hx, by omega⟩
    apply run_pos n hn calls (allocate m sizeInBytes).2 (by rw [hfld.1]; exact hw)
      hstep.1 hstep.2
    intro c hcmem
    rw [hfld.1]
    exact hcalls c (List.mem_cons_of_mem _ hcmem)
  | Call.free address :: calls, m, hw, hc, hp, hcalls => by
    have hfld := free_fields m address
    have hstep : Chain (free m address).blocksHead 0 n ∧
        ∀ x ∈ (free m address).blocksHead, 1 ≤ x.size := by
      unfold free
      split_ifs
      · exact ⟨hc, hp⟩
      · exact ⟨freeLoop_chain _ _ 0 n hn _ [] (by simpa using hc),
          freeLoop_pos _ _ 0 n hn _ [] (by simpa using hc) (by simpa using hp)⟩
    apply run_pos n hn calls (free m address) (by rw [hfld.1]; exact hw) hstep.1 hstep.2
    intro c hcmem
    rw [hfld.1]
    exact hcalls c (List.mem_cons_of_mem _ hcmem)

/-- For `n >= 1` and a word size above 0, every block has at least one word after
any sequence of calls, made after `initialize(n)`, none of whose requests wraps. -/
theorem sizes_positive (wordSize n arena : Nat) (allocator : Allocator) (calls : List Call)
    (hw : 0 < wordSize) (hn1 : 1 ≤ n) (hn : n < sizeMod)
    (hcalls : ∀ c ∈ calls, noWrap wordSize c) :
    ∀ x ∈ (run (initialise (construct wordSize allocator) n arena) calls).blocksHead,
      1 ≤ x.size := by
  apply run_pos n hn calls (initialise (construct wordSize allocator) n arena) hw
    (initialise_chain _ n arena).2 _ hcalls
  intro x hx
  simp only [initialise, List.mem_singleton] at hx
  subst hx
  exact hn1

/-! ## Where free is a no-op, and what a start word inside a hole marks -/

/-- A ready manager whose blocks lie end to end, whose arena ends inside the
address space and one of whose blocks holds a byte offset is well formed: its
word size is not 0, so its word count and its arena address are below `2^64`. -/
theorem wellFormed_of_hit (m : MemoryManager) (b : MemoryBlock) (off : Nat)
    (hready : m.memoryStart_ ≠ 0) (hc : Chain m.blocksHead 0 m.sizeInWords_)
    (harena : m.memoryStart_ + m.sizeInWords_ * m.wordSize_ ≤ sizeMod)
    (hb : b ∈ m.blocksHead) (hin : inBytes m.wordSize_ off b) : WellFormed m := by
  have hbnd := chain_bounds _ 0 _ hc b hb
  have h1 : (b.start + b.size) * m.wordSize_ ≤ m.sizeInWords_ * m.wordSize_ :=
    Nat.mul_le_mul_right _ hbnd.2
  have hlt := hin.2
  have hw : 0 < m.wordSize_ := by
    rcases Nat.eq_zero_or_pos m.wordSize_ with h0 | hpos
    · rw [h0, Nat.mul_zero] at hlt
      omega
    · exact hpos
  have hn : m.sizeInWords_ ≤ m.sizeInWords_ * m.wordSize_ := Nat.le_mul_of_pos_right _ hw
  exact ⟨hc, by omega, by omega, harena⟩

/-- When the byte count of `initialize` has wrapped, `free` on a pointer that
`allocate` returned can be a no-op. Word size `2^32 - 1` and
`initialize(2^32 + 3)`: after `allocate(1)`, `allocate(2^64 - 2^32 + 1)` returns
`base + 2^32 - 1` for the allocated block `(1, 2^32 + 1)`, the end of whose byte
range wraps to `2^32 - 2`, and `free` on that address changes nothing. -/
theorem free_wrapped_arena_no_op :
    mul64 4294967299 4294967295 = 8589934589 ∧
    (allocate (allocate (initialise (construct 4294967295 bestFit) 4294967299 4096) 1).2
      18446744069414584321).1 = 4096 + 4294967295 ∧
    (allocate (allocate (initialise (construct 4294967295 bestFit) 4294967299 4096) 1).2
      18446744069414584321).2.blocksHead =
      [⟨0, 1, false⟩, ⟨1, 4294967297, false⟩, ⟨4294967298, 1, true⟩] ∧
    free (allocate (allocate (initialise (construct 4294967295 bestFit) 4294967299 4096) 1).2
      18446744069414584321).2 (4096 + 4294967295) =
      (allocate (allocate (initialise (construct 4294967295 bestFit) 4294967299 4096) 1).2
        18446744069414584321).2 := by
  refine ⟨by decide, by decide, by decide, ?_⟩
  apply free_miss
  decide

/-- Where `free` is a no-op. `free(address)` leaves the whole manager state
unchanged when the address is null, when the manager is uninitialised (never
initialised, or after `shutdown`), when the address lies outside the arena (below
`memoryStart_`, or at or after `memoryStart_ + sizeInWords_ * wordSize_`), when
the address falls in a block that is currently free, and in particular on a
second `free` of the same address.  The last three are for a manager whose blocks
lie end to end over an arena inside the address space. -/
theorem free_no_op_wellFormed (m : MemoryManager) (address wordSize : Nat)
    (allocator : Allocator) :
    free m 0 = m ∧
    (m.memoryStart_ = 0 → free m address = m) ∧
    free (construct wordSize allocator) address = construct wordSize allocator ∧
    free (shutdown m) address = shutdown m ∧
    (WellFormed m → address < sizeMod →
      (address < m.memoryStart_ ∨
        m.memoryStart_ + m.sizeInWords_ * m.wordSize_ ≤ address) →
      free m address = m) ∧
    (WellFormed m →
      (∃ b ∈ m.blocksHead, b.isFree = true ∧
        m.memoryStart_ + b.start * m.wordSize_ ≤ address ∧
        address < m.memoryStart_ + (b.start + b.size) * m.wordSize_) →
      free m address = m) ∧
    (WellFormed m → free (free m address) address = free m address) := by
  refine ⟨?_, ?_, ?_, ?_, ?_, ?_, free_free m address⟩
  · simp [free]
  · intro h
    simp [free, h]
  · simp [free, construct]
  · simp [free, shutdown]
  · rintro ⟨hc, hn, hbase, harena⟩ haddr hout
    by_cases h0 : m.memoryStart_ = 0
    · simp [free, h0]
    apply free_miss
    have hbytes : m.sizeInWords_ * m.wordSize_ < sizeMod := by omega
    apply miss_outside _ _ 0 _ _ hc hbytes
    unfold sub64
    rw [Nat.mod_eq_of_lt hbase]
    rcases hout with hlt | hge
    · rw [Nat.mod_eq_of_lt (by omega)]
      omega
    · have : address + sizeMod - m.memoryStart_ = (address - m.memoryStart_) + sizeMod := by
        omega
      rw [this, Nat.add_mod_right, Nat.mod_eq_of_lt (by omega)]
      omega
  · rintro ⟨hc, hn, hbase, harena⟩ ⟨b, hb, hfree, hlo, hhi⟩
    by_cases h0 : m.memoryStart_ = 0
    · simp [free, h0]
    apply free_miss
    have hbytes : m.sizeInWords_ * m.wordSize_ < sizeMod := by omega
    have hbnd := chain_bounds _ 0 _ hc b hb
    have h1 : (b.start + b.size) * m.wordSize_ ≤ m.sizeInWords_ * m.wordSize_ :=
      Nat.mul_le_mul_right _ hbnd.2
    have hoff : sub64 address m.memoryStart_ = address - m.memoryStart_ := by
      unfold sub64
      rw [Nat.mod_eq_of_lt hbase]
      have : address + sizeMod - m.memoryStart_ = (address - m.memoryStart_) + sizeMod := by
        omega
      rw [this, Nat.add_mod_right, Nat.mod_eq_of_lt (by omega)]
    rw [hoff]
    apply miss_of_free _ _ 0 _ _ b hc hbytes hb hfree
    unfold inBytes
    omega

/-- The no-op cases of `free` on 16 words of 4 bytes at address 4096 with the
allocated block `(0, 3)` and the free block `(3, 13)`: an address below the
arena, the address at its end, an address in the free block, and a second free of
the block start. -/
theorem free_no_op_instance :
    free (allocate (initialise (construct 4 bestFit) 16 4096) 10).2 4000 =
      (allocate (initialise (construct 4 bestFit) 16 4096) 10).2 ∧
    free (allocate (initialise (construct 4 bestFit) 16 4096) 10).2 4160 =
      (allocate (initialise (construct 4 bestFit) 16 4096) 10).2 ∧
    free (allocate (initialise (construct 4 bestFit) 16 4096) 10).2 4120 =
      (allocate (initialise (construct 4 bestFit) 16 4096) 10).2 ∧
    free (free (allocate (initialise (construct 4 bestFit) 16 4096) 10).2 4096) 4096 =
      free (allocate (initialise (construct 4 bestFit) 16 4096) 10).2 4096 :=
  ⟨(free_no_op_wellFormed _ 4000 4 bestFit).2.2.2.2.1 (by decide) (by decide)
     (Or.inl (by decide)),
   (free_no_op_wellFormed _ 4160 4 bestFit).2.2.2.2.1 (by decide) (by decide)
     (Or.inr (by decide)),
   (free_no_op_wellFormed _ 4120 4 bestFit).2.2.2.2.2.1 (by decide)
     ⟨⟨3, 13, true⟩, by decide, rfl, by decide, by decide⟩,
   (free_no_op_wellFormed _ 4096 4 bestFit).2.2.2.2.2.2 (by decide)⟩

/-- What the loop of `allocate` marks for a start word inside a free block. For
every strategy, also a user-supplied one, that returns a start word `s` lying in
a free block `R` with `R.start <= s` and
`R.start + R.size >= s + r`, where `r >= 1` is the required word count: `allocate`
returns the address computed from `s` (which is `memoryStart_ + s * wordSize_`
when the product fits in 32 bits and the sum in a pointer), and marks exactly the
first `r` words of `R`, the words from `R.start` to `R.start + r`, as allocated,
whatever `s` is: `R` is replaced by the allocated block `(R.start, r)`, followed
by the free rest when `R` is larger, and every other block is unchanged. -/
theorem allocate_carves_low_end (m : MemoryManager) (sizeInBytes : Nat) (list : List Nat)
    (pre post : List MemoryBlock) (R : MemoryBlock) (s : Nat)
    (hready : m.memoryStart_ ≠ 0) (hN : sizeInBytes ≠ 0)
    (hc : Chain m.blocksHead 0 m.sizeInWords_) (hn : m.sizeInWords_ < sizeMod)
    (hl : getList m = some list)
    (hs : m.allocator_ (toInt (requiredWordsOf m.wordSize_ sizeInBytes)) list = (s : Int))
    (hsplit : m.blocksHead = pre ++ R :: post) (hfree : R.isFree = true)
    (hlo : R.start ≤ s)
    (hhi : s + requiredWordsOf m.wordSize_ sizeInBytes ≤ R.start + R.size)
    (hr : 1 ≤ requiredWordsOf m.wordSize_ sizeInBytes) :
    (allocate m sizeInBytes).1 = addressOf m (s : Int) ∧
    (s * m.wordSize_ < uintMod → m.memoryStart_ + s * m.wordSize_ < sizeMod →
      (allocate m sizeInBytes).1 = m.memoryStart_ + s * m.wordSize_) ∧
    (allocate m sizeInBytes).2.blocksHead =
      pre ++ (if R.size = requiredWordsOf m.wordSize_ sizeInBytes then
          [⟨R.start, requiredWordsOf m.wordSize_ sizeInBytes, false⟩]
        else
          [⟨R.start, requiredWordsOf m.wordSize_ sizeInBytes, false⟩,
           ⟨R.start + requiredWordsOf m.wordSize_ sizeInBytes,
            R.size - requiredWordsOf m.wordSize_ sizeInBytes, true⟩]) ++ post ∧
    ∀ k, allocatedAt (allocate m sizeInBytes).2.blocksHead k =
      (allocatedAt m.blocksHead k ||
        (decide (R.start ≤ k) &&
          decide (k < R.start + requiredWordsOf m.wordSize_ sizeInBytes))) := by
  generalize hreq : requiredWordsOf m.wordSize_ sizeInBytes = r at hs hhi hr ⊢
  rw [hsplit] at hc
  have hRb := chain_bounds _ 0 _ hc R (by simp)
  have hts : toSizeT (s : Int) = s := toSizeT_natCast s (by omega)
  have hfitR : fits (s : Int) r R = true := by
    simp only [fits, hts, hfree, Bool.true_and, Bool.and_eq_true, decide_eq_true_eq]
    rw [add64_eq (by omega), add64_eq (by omega)]
    exact ⟨hlo, hhi⟩
  have hpre : ∀ y ∈ pre, fits (s : Int) r y = false := by
    intro y hy
    have hyb := chain_bounds _ 0 _ hc y (by simp [hy])
    have hle := chain_before pre post R 0 _ hc y hy
    have : ¬ (add64 s r ≤ add64 y.start y.size) := by
      rw [add64_eq (by omega), add64_eq (by omega)]
      omega
    simp [fits, hts, this]
  have hcarve := carve_first (s : Int) r R post hfitR pre hpre
  have hne : (s : Int) ≠ -1 := by omega
  have hall : allocate m sizeInBytes =
      (addressOf m (s : Int), { m with blocksHead := pre ++ carveBlock r R ++ post }) := by
    unfold allocate
    rw [if_neg (not_or.mpr ⟨hready, hN⟩)]
    simp only [hl, hreq, hs, hne, if_false, hsplit, hcarve]
  have hcb := fun k => allocatedAt_carveBlock r R k hfree (by omega) (by omega)
  rw [hall]
  refine ⟨rfl, ?_, ?_, ?_⟩
  · intro hprod hsum
    show addressOf m (s : Int) = _
    have htu : toUnsigned (s : Int) * m.wordSize_ % uintMod = s * m.wordSize_ := by
      rcases Nat.eq_zero_or_pos m.wordSize_ with h0 | hpos
      · rw [h0]
        rfl
      · have hlt : s < uintMod := by
          have : s * 1 ≤ s * m.wordSize_ := Nat.mul_le_mul_left s hpos
          omega
        unfold toUnsigned
        have h1 : ((s : Int) % (uintMod : Int)) = ((s % uintMod : Nat) : Int) := by simp
        rw [h1, Int.toNat_ofNat, Nat.mod_eq_of_lt hlt, Nat.mod_eq_of_lt hprod]
    unfold addressOf
    rw [htu, add64_eq hsum]
  · show pre ++ carveBlock r R ++ post = _
    rw [(hcb 0).1]
  · intro k
    show allocatedAt (pre ++ carveBlock r R ++ post) k = _
    rw [hsplit, allocatedAt_append, allocatedAt_append, allocatedAt_append,
      allocatedAt_cons, (hcb k).2]
    simp only [hfree, Bool.not_true, Bool.false_and, Bool.false_or]
    cases allocatedAt pre k <;> cases allocatedAt post k <;> simp

/-! ## Claims -/

/-- C1. For every word size above zero, every arena size `n` (a `size_t`), either
built-in strategy (indeed any strategy) and every sequence of `allocate` and
`free` calls made after `initialize(n)`, the block list is contiguous, ordered and
non-overlapping: it has a first block, which starts at word 0, every following
block starts at the start plus the size of the block before it, the last block
ends at `n`, and the block sizes add up to `n`. -/
theorem C1_blocks_contiguous (wordSize n arena : Nat) (allocator : Allocator)
    (calls : List Call) (hw : 0 < wordSize) (hn : n < sizeMod)
    (hs : allocator = bestFit ∨ allocator = worstFit) :
    Contiguous (run (initialise (construct wordSize allocator) n arena) calls).blocksHead n := by
  have h0 := initialise_chain (construct wordSize allocator) n arena
  have h := run_chain n hn calls _ h0.1 h0.2
  exact chain_contiguous _ n h.1 h.2

/-- C1, instance: word size 4, 16 words, best fit, the scenario of the
specification followed by two frees. -/
theorem C1_blocks_contiguous_witness :
    Contiguous (run (initialise (construct 4 bestFit) 16 4096)
      [Call.allocate 10, Call.allocate 52, Call.free 4096, Call.free 4108]).blocksHead 16 :=
  C1_blocks_contiguous 4 16 4096 bestFit _ (by decide) (by decide) (Or.inl rfl)

/-- C2, failing run. With word size 1 and three words, allocate three blocks of
one word, free the first, the third and then the second: `mergeHoles` merges the
second block into the first and returns, so the list ends as two free blocks
`(0, 2)` and `(2, 1)` side by side. -/
theorem C2_adjacent_free_blocks :
    (run (initialise (construct 1 bestFit) 3 4096)
      [Call.allocate 1, Call.allocate 1, Call.allocate 1,
       Call.free 4096, Call.free 4098, Call.free 4097]).blocksHead =
      [⟨0, 2, true⟩, ⟨2, 1, true⟩] ∧
    adjacentFree (run (initialise (construct 1 bestFit) 3 4096)
      [Call.allocate 1, Call.allocate 1, Call.allocate 1,
       Call.free 4096, Call.free 4098, Call.free 4097]).blocksHead = true ∧
    (run (initialise (construct 1 worstFit) 3 4096)
      [Call.allocate 1, Call.allocate 1, Call.allocate 1,
       Call.free 4096, Call.free 4098, Call.free 4097]).blocksHead =
      [⟨0, 2, true⟩, ⟨2, 1, true⟩] := by
  decide

/-- C3. `bestFit(required, holes)`: for every requested word count (a
non-negative `int`) and every hole list (the count followed by the start and size
of each hole, all `uint16_t`), when some hole has size at least the request the
result is the start of the first hole in list order whose size is least among the
holes with size at least the request; and the result is -1 exactly when no hole
has size at least the request.  Holes of sizes 10, 4, 7 and a request of 4 words
give the hole of size 4. -/
theorem C3_bestFit_first_smallest (r : Nat) (holes : List (Nat × Nat))
    (hr : r < 2147483648) (hlen : holes.length < u16Mod)
    (hrange : ∀ h ∈ holes, h.1 < u16Mod ∧ h.2 < u16Mod) :
    ((∃ h ∈ holes, r ≤ h.2) →
      ∃ pre h post, holes = pre ++ h :: post ∧ r ≤ h.2 ∧
        (∀ x ∈ pre, r ≤ x.2 → h.2 < x.2) ∧ (∀ x ∈ post, r ≤ x.2 → h.2 ≤ x.2) ∧
        bestFit (r : Int) (encodeHoles holes) = (h.1 : Int)) ∧
    (bestFit (r : Int) (encodeHoles holes) = -1 ↔ ∀ h ∈ holes, ¬ r ≤ h.2) ∧
    bestFit 4 (encodeHoles [(0, 10), (20, 4), (30, 7)]) = 20 := by
  refine ⟨?_, ?_, by decide⟩
  all_goals rw [bestFit_fold, toSizeT_natCast r (by unfold sizeMod; omega)]
  all_goals rcases bestScan_spec r holes (-1, sizeMax) with
    ⟨h1, h2⟩ | ⟨pre, h, post, e, h1, h2, h3, h4, h5⟩
  · rintro ⟨x, hx, hq⟩
    have := h2 x hx hq
    have := (hrange x hx).2
    simp only [sizeMax, u16Mod] at *
    omega
  · intro _
    refine ⟨pre, h, post, e, h1, h3, h4, ?_⟩
    have hmem : h ∈ holes := by rw [e]; simp
    have := (hrange h hmem).1
    rw [h5, toInt_small h.1 (by unfold u16Mod at this; omega)]
  · rw [h1]
    refine ⟨fun _ x hx hq => ?_, fun _ => rfl⟩
    have := h2 x hx hq
    have := (hrange x hx).2
    simp only [sizeMax, u16Mod] at *
    omega
  · have hmem : h ∈ holes := by rw [e]; simp
    have := (hrange h hmem).1
    rw [h5, toInt_small h.1 (by unfold u16Mod at this; omega)]
    constructor
    · intro hneg
      simp only at hneg
      omega
    · intro hall
      exact absurd h1 (hall h hmem)

/-- C3, instance: the three holes of the specification and a request of 4 words. -/
theorem C3_bestFit_first_smallest_witness :
    bestFit 4 (encodeHoles [(0, 10), (20, 4), (30, 7)]) = 20 :=
  (C3_bestFit_first_smallest 4 [(0, 10), (20, 4), (30, 7)] (by decide) (by decide)
    (by decide)).2.2

/-- C4, counterexample. For a request of 0 words and the single hole `(0, 0)`,
whose size 0 is at least the request, `worstFit` returns -1. -/
theorem C4_worstFit_empty_hole :
    worstFit 0 (encodeHoles [(0, 0)]) = -1 ∧ (0 : Nat) ≤ ((0, 0) : Nat × Nat).2 := by
  decide

/-- C4, amended. `worstFit(required, holes)`: for every requested word count
and every hole list, when some non-empty hole has size at least the request the
result is the start of the first hole in list order whose size is greatest among
the holes with size at least the request; and the result is -1 exactly when no
non-empty hole has size at least the request.  Holes of sizes 10, 4, 7 and a
request of 4 words give the hole of size 10. -/
theorem C4_worstFit_first_largest (r : Nat) (holes : List (Nat × Nat))
    (hr : r < 2147483648) (hlen : holes.length < u16Mod)
    (hrange : ∀ h ∈ holes, h.1 < u16Mod ∧ h.2 < u16Mod) :
    ((∃ h ∈ holes, r ≤ h.2 ∧ 0 < h.2) →
      ∃ pre h post, holes = pre ++ h :: post ∧ r ≤ h.2 ∧ 0 < h.2 ∧
        (∀ x ∈ pre, r ≤ x.2 → x.2 < h.2) ∧ (∀ x ∈ post, r ≤ x.2 → x.2 ≤ h.2) ∧
        worstFit (r : Int) (encodeHoles holes) = (h.1 : Int)) ∧
    (worstFit (r : Int) (encodeHoles holes) = -1 ↔ ∀ h ∈ holes, ¬ (r ≤ h.2 ∧ 0 < h.2)) ∧
    worstFit 4 (encodeHoles [(0, 10), (20, 4), (30, 7)]) = 0 := by
  refine ⟨?_, ?_, by decide⟩
  all_goals rw [worstFit_fold, toSizeT_natCast r (by unfold sizeMod; omega)]
  all_goals rcases worstScan_spec r holes (-1, 0) with
    ⟨h1, h2⟩ | ⟨pre, h, post, e, h1, h2, h3, h4, h5⟩
  · rintro ⟨x, hx, hq, hpos⟩
    have := h2 x hx hq
    simp only at this
    omega
  · intro _
    refine ⟨pre, h, post, e, h1, h2, h3, h4, ?_⟩
    have hmem : h ∈ holes := by rw [e]; simp
    have := (hrange h hmem).1
    rw [h5, toInt_small h.1 (by unfold u16Mod at this; omega)]
  · rw [h1]
    refine ⟨fun _ x hx hq => ?_, fun _ => rfl⟩
    have := h2 x hx hq.1
    simp only at this
    omega
  · have hmem : h ∈ holes := by rw [e]; simp
    have := (hrange h hmem).1
    rw [h5, toInt_small h.1 (by unfold u16Mod at this; omega)]
    constructor
    · intro hneg
      simp only at hneg
      omega
    · intro hall
      exact absurd ⟨h1, h2⟩ (hall h hmem)

/-- C4, instance: the three holes of the specification and a request of 4 words. -/
theorem C4_worstFit_first_largest_witness :
    worstFit 4 (encodeHoles [(0, 10), (20, 4), (30, 7)]) = 0 :=
  (C4_worstFit_first_largest 4 [(0, 10), (20, 4), (30, 7)] (by decide) (by decide)
    (by decide)).2.2

/-- C5, failing input. Word size 131072 and 40000 words (an arena of about 5 GB)
at address 4096, best fit.  `allocate(4294967296)` takes 32768 words and returns
the arena base.  Then `allocate(1)`: the strategy picks start word 32768, the free
block `(32768, 7232)` is split as the claim says, but the returned address is
again the arena base, because `32768 * 131072` is computed in 32 bits and wraps
to 0; the claim gives `4096 + 32768 * 131072`, which is 4294971392.  The example
of the claim (16 words of 4 bytes) behaves as stated. -/
theorem C5_address_product_wraps :
    (allocate (initialise (construct 131072 bestFit) 40000 4096) 4294967296).1 = 4096 ∧
    (allocate (initialise (construct 131072 bestFit) 40000 4096) 4294967296).2.blocksHead =
      [⟨0, 32768, false⟩, ⟨32768, 7232, true⟩] ∧
    getList (allocate (initialise (construct 131072 bestFit) 40000 4096) 4294967296).2 =
      some [1, 32768, 7232] ∧
    bestFit (toInt (requiredWordsOf 131072 1)) [1, 32768, 7232] = 32768 ∧
    (allocate (allocate (initialise (construct 131072 bestFit) 40000 4096) 4294967296).2 1).1 =
      4096 ∧
    (allocate (allocate (initialise (construct 131072 bestFit) 40000 4096)
      4294967296).2 1).2.blocksHead =
      [⟨0, 32768, false⟩, ⟨32768, 1, false⟩, ⟨32769, 7231, true⟩] ∧
    4096 + 32768 * 131072 = 4294971392 ∧
    (allocate (initialise (construct 4 bestFit) 16 4096) 10).1 = 4096 ∧
    (allocate (initialise (construct 4 bestFit) 16 4096) 10).2.blocksHead =
      [⟨0, 3, false⟩, ⟨3, 13, true⟩] ∧
    (allocate (allocate (initialise (construct 4 bestFit) 16 4096) 10).2 52).1 = 4096 + 12 ∧
    (allocate (allocate (initialise (construct 4 bestFit) 16 4096) 10).2 52).2.blocksHead =
      [⟨0, 3, false⟩, ⟨3, 13, false⟩] := by
  decide

/-- C6, failing input. Word size 2, `initialize(2^63)` (so that
`sizeInWords * wordSize` is `2^64` and `new char[]` is asked for 0 bytes), best
fit, and `N = 2^64 - 1`, which is at most `n * wordSize`.  The sum
`N + wordSize - 1` wraps to 0, so 0 words are required; `allocate` splits off an
allocated block of 0 words and returns the arena base; `free` on that address
finds no block, and the list stays `(0, 0)` allocated, `(0, 2^63)` free.  The
same happens with worst fit on `2^63 + 1` words. -/
theorem C6_round_trip_wraps :
    requiredWordsOf 2 18446744073709551615 = 0 ∧
    18446744073709551615 ≤ 9223372036854775808 * 2 ∧
    (allocate (initialise (construct 2 bestFit) 9223372036854775808 4096)
      18446744073709551615).1 = 4096 ∧
    (free (allocate (initialise (construct 2 bestFit) 9223372036854775808 4096)
      18446744073709551615).2
      (allocate (initialise (construct 2 bestFit) 9223372036854775808 4096)
        18446744073709551615).1).blocksHead =
      [⟨0, 0, false⟩, ⟨0, 9223372036854775808, true⟩] ∧
    (free (allocate (initialise (construct 2 worstFit) 9223372036854775809 4096)
      18446744073709551615).2
      (allocate (initialise (construct 2 worstFit) 9223372036854775809 4096)
        18446744073709551615).1).blocksHead =
      [⟨0, 0, false⟩, ⟨0, 9223372036854775809, true⟩] := by
  decide

/-- C7, counterexample. With word size 4 and 16 words, `allocate(10)` leaves the
allocated block `(0, 3)` and the free block `(3, 13)`.  The address `base + 4` has
byte offset 4, inside the allocated block (bytes 0 to 11) and not its start
offset 0; `free` on it releases the block and the list becomes the single free
block `(0, 16)`. -/
theorem C7_free_mid_block_releases :
    (allocate (initialise (construct 4 bestFit) 16 4096) 10).2.blocksHead =
      [⟨0, 3, false⟩, ⟨3, 13, true⟩] ∧
    (free (allocate (initialise (construct 4 bestFit) 16 4096) 10).2 (4096 + 4)).blocksHead =
      [⟨0, 16, true⟩] := by
  decide

/-- C7, amended. In a ready manager whose blocks lie end to end over the
`sizeInWords_` words and whose arena ends inside the address space
(`memoryStart_ + sizeInWords_ * wordSize_` is at most `2^64`, the product taken
without wrap-around), `free(address)` where the address lies inside an allocated
block `b` (anywhere in its byte range, so also strictly inside, away from its
start offset) releases that block: the result is the old list with `b` marked
free and merged by `mergeHoles`, it is the same as for `free` on the start
address of `b`, and the block list has changed. -/
theorem C7_free_inside_block_releases (m : MemoryManager) (pre post : List MemoryBlock)
    (b : MemoryBlock) (off : Nat) (hready : m.memoryStart_ ≠ 0)
    (hc : Chain m.blocksHead 0 m.sizeInWords_)
    (harena : m.memoryStart_ + m.sizeInWords_ * m.wordSize_ ≤ sizeMod)
    (hsplit : m.blocksHead = pre ++ b :: post) (halloc : b.isFree = false)
    (hin : inBytes m.wordSize_ off b) :
    (free m (m.memoryStart_ + off)).blocksHead =
      mergeHoles pre.reverse { b with isFree := true } post ∧
    free m (m.memoryStart_ + off) = free m (m.memoryStart_ + b.start * m.wordSize_) ∧
    (free m (m.memoryStart_ + off)).blocksHead ≠ m.blocksHead := by
  have hmem : b ∈ m.blocksHead := by
    rw [hsplit]
    simp
  have hwf : WellFormed m := wellFormed_of_hit m b off hready hc harena hmem hin
  have hstart : inBytes m.wordSize_ (b.start * m.wordSize_) b := by
    unfold inBytes at hin ⊢
    omega
  have h1 := free_hit_blocks m pre post b off hready hwf hsplit halloc hin
  have h2 := free_hit_blocks m pre post b _ hready hwf hsplit halloc hstart
  refine ⟨by rw [h1], by rw [h1, h2], ?_⟩
  rw [h1, hsplit]
  have := mergeHoles_ne pre.reverse post b halloc
  simpa using this

/-- C7, instance: the state after `allocate(10)` on 16 words of 4 bytes, and the
byte offset 4 inside the allocated block `(0, 3)`. -/
theorem C7_free_inside_block_releases_witness :
    (free (allocate (initialise (construct 4 bestFit) 16 4096) 10).2 (4096 + 4)).blocksHead =
      mergeHoles [] { start := 0, size := 3, isFree := true } [⟨3, 13, true⟩] :=
  (C7_free_inside_block_releases (allocate (initialise (construct 4 bestFit) 16 4096) 10).2
    [] [⟨3, 13, true⟩] ⟨0, 3, false⟩ 4 (by decide) (by decide) (by decide) rfl rfl
    (by decide)).1

/-- C8, failing input. Word size `2^32 - 1` and `initialize(2^32 + 2)`: the byte
count `sizeInWords_ * wordSize_` wraps to `2^32 - 2`.  `allocate(2^64 - 2^32 + 1)`
returns the arena base and leaves the allocated block `(0, 2^32 + 1)` and the
free block `(2^32 + 1, 1)`.  The address `base - 2` lies below the arena; its
offset is `2^64 - 2`, inside the byte range computed for the allocated block,
which ends at `2^64 - 1`: `free` on it releases the block and the list becomes
the single free block `(0, 2^32 + 2)`. -/
theorem C8_free_below_arena_releases :
    mul64 4294967298 4294967295 = 4294967294 ∧
    (allocate (initialise (construct 4294967295 bestFit) 4294967298 4096)
      18446744069414584321).1 = 4096 ∧
    (allocate (initialise (construct 4294967295 bestFit) 4294967298 4096)
      18446744069414584321).2.blocksHead =
      [⟨0, 4294967297, false⟩, ⟨4294967297, 1, true⟩] ∧
    4094 < (allocate (initialise (construct 4294967295 bestFit) 4294967298 4096)
      18446744069414584321).2.memoryStart_ ∧
    sub64 4094 4096 = 18446744073709551614 ∧
    mul64 4294967297 4294967295 = 18446744073709551615 ∧
    (free (allocate (initialise (construct 4294967295 bestFit) 4294967298 4096)
      18446744069414584321).2 4094).blocksHead = [⟨0, 4294967298, true⟩] := by
  decide

/-- C9, failing input. In the list free `(0, 1)`, allocated `(1, 1)`, free
`(2, 1)` (word size 4, reached from `initialize(3)` by three allocations and two
frees) no two neighbours are both free.  Freeing the middle block at its start
address `base + 4` merges it into the block before it only: the result is the
two free blocks `(0, 2)` and `(2, 1)`, not the single block `(0, 3)`.  The
example of the claim, with only the block before free, does give `(0, 16)`. -/
theorem C9_release_between_two_holes :
    (run (initialise (construct 4 bestFit) 3 4096)
      [Call.allocate 4, Call.allocate 4, Call.allocate 4,
       Call.free 4096, Call.free 4104]).blocksHead =
      [⟨0, 1, true⟩, ⟨1, 1, false⟩, ⟨2, 1, true⟩] ∧
    (free (run (initialise (construct 4 bestFit) 3 4096)
      [Call.allocate 4, Call.allocate 4, Call.allocate 4,
       Call.free 4096, Call.free 4104]) (4096 + 4)).blocksHead =
      [⟨0, 2, true⟩, ⟨2, 1, true⟩] ∧
    mergeHoles [⟨0, 1, true⟩] ⟨1, 1, true⟩ [⟨2, 1, true⟩] = [⟨0, 2, true⟩, ⟨2, 1, true⟩] ∧
    (free (run (initialise (construct 4 bestFit) 16 4096)
      [Call.allocate 10, Call.allocate 52, Call.free 4096]) (4096 + 12)).blocksHead =
      [⟨0, 16, true⟩] := by
  decide

/-- C10. `allocate(sizeInBytes)` returns null and leaves the manager, block list
included, unchanged whenever the manager is uninitialised (`memoryStart_` is
null: never initialised, or after `shutdown`) or `sizeInBytes` is 0, whatever
strategy is installed. -/
theorem C10_allocate_not_ready (m : MemoryManager) (sizeInBytes wordSize : Nat)
    (allocator : Allocator) :
    (m.memoryStart_ = 0 → allocate m sizeInBytes = (0, m)) ∧
    allocate m 0 = (0, m) ∧
    allocate (construct wordSize allocator) sizeInBytes = (0, construct wordSize allocator) ∧
    allocate (shutdown m) sizeInBytes = (0, shutdown m) ∧
    allocate (setAllocator (shutdown m) allocator) sizeInBytes =
      (0, setAllocator (shutdown m) allocator) := by
  refine ⟨?_, ?_, ?_, ?_, ?_⟩
  · intro h
    simp [allocate, h]
  · simp [allocate]
  · simp [allocate, construct]
  · simp [allocate, shutdown]
  · simp [allocate, shutdown, setAllocator]

/-- C11, failing input. Word size 2, 16 words, either built-in strategy, and a
request of `2^64 - 1` bytes: it needs `2^63` words, more than the size 16 of
the only free block, yet `allocate` returns the arena base and splits off an
allocated block of 0 words, because line 60 computes 0 required words. -/
theorem C11_no_fit_wraps :
    (18446744073709551615 + 2 - 1) / 2 = 9223372036854775808 ∧
    (initialise (construct 2 bestFit) 16 4096).blocksHead = [⟨0, 16, true⟩] ∧
    (allocate (initialise (construct 2 bestFit) 16 4096) 18446744073709551615).1 = 4096 ∧
    (allocate (initialise (construct 2 bestFit) 16 4096) 18446744073709551615).2.blocksHead =
      [⟨0, 0, false⟩, ⟨0, 16, true⟩] ∧
    (allocate (initialise (construct 2 worstFit) 16 4096) 18446744073709551615).1 = 4096 ∧
    (allocate (initialise (construct 2 worstFit) 16 4096) 18446744073709551615).2.blocksHead =
      [⟨0, 0, false⟩, ⟨0, 16, true⟩] := by
  decide

/-- C12, counterexample. For 524288 words (all free, after `initialize`), the
byte count `ceil(524288 / 8)` is 65536; the array has `2 + 65536` bytes, and its
bytes 0 and 1 are both 0, which is the little-endian encoding of 0, not of
65536. -/
theorem C12_header_truncated :
    (524288 + 7) / 8 = 65536 ∧
    (getBitmap (initialise (construct 1 bestFit) 524288 4096)).getD 0 0 = 0 ∧
    (getBitmap (initialise (construct 1 bestFit) 524288 4096)).getD 1 0 = 0 ∧
    (getBitmap (initialise (construct 1 bestFit) 524288 4096)).length = 2 + 65536 := by
  have h := getBitmap_spec (initialise (construct 1 bestFit) 524288 4096) 0
    (by decide) (by decide)
  refine ⟨by decide, ?_, ?_, ?_⟩
  · rw [h.2.1]
    decide
  · rw [h.2.2.1]
    decide
  · rw [h.1]
    decide

/-- C12, amended. `getBitmap`: for every block list that exactly covers the
words 0 to `sizeInWords` (with `sizeInWords + 7` below `2^64`), the result is
`2 + ceil(sizeInWords / 8)` bytes long; bytes 0 and 1 are the low 16 bits of
`ceil(sizeInWords / 8)`, low byte first, which is the little-endian encoding of
`ceil(sizeInWords / 8)` whenever that count is below 65536; for every word
`w < sizeInWords`, bit `w mod 8` of byte `2 + w / 8` is 1 exactly when `w` lies in
an allocated block; and every bit at a position from `sizeInWords` on is 0.  For
16 words with `(0, 3)` free and `(3, 13)` allocated the bytes are 2, 0, 248,
255. -/
theorem C12_bitmap_bits (m : MemoryManager)
    (hc : Chain m.blocksHead 0 m.sizeInWords_) (hn : m.sizeInWords_ + 7 < sizeMod) :
    (getBitmap m).length = 2 + (m.sizeInWords_ + 7) / 8 ∧
    (getBitmap m).getD 0 0 = (m.sizeInWords_ + 7) / 8 % 256 ∧
    (getBitmap m).getD 1 0 = (m.sizeInWords_ + 7) / 8 / 256 % 256 ∧
    ((m.sizeInWords_ + 7) / 8 < 65536 →
      (getBitmap m).getD 0 0 + 256 * (getBitmap m).getD 1 0 = (m.sizeInWords_ + 7) / 8) ∧
    (∀ w, w < m.sizeInWords_ →
      ((getBitmap m).getD (2 + w / 8) 0).testBit (w % 8) = allocatedAt m.blocksHead w) ∧
    (∀ w, m.sizeInWords_ ≤ w → ((getBitmap m).getD (2 + w / 8) 0).testBit (w % 8) = false) ∧
    getBitmap (run (initialise (construct 4 bestFit) 16 4096)
      [Call.allocate 10, Call.allocate 52, Call.free 4096]) = [2, 0, 248, 255] := by
  have h := fun k => getBitmap_spec m k hc hn
  refine ⟨(h 0).1, (h 0).2.1, (h 0).2.2.1, ?_, ?_, ?_, by decide⟩
  · intro hsmall
    rw [(h 0).2.1, (h 0).2.2.1]
    omega
  · intro w _
    exact (h w).2.2.2
  · intro w hw
    have := (h w).2.2.2
    unfold wordBit at this
    rw [this]
    exact allocatedAt_outside _ w hw _ (fun b hb => (chain_bounds _ 0 _ hc b hb).2)

/-- C12, instance: 16 words with `(0, 3)` free and `(3, 13)` allocated. -/
theorem C12_bitmap_bits_witness :
    (getBitmap (run (initialise (construct 4 bestFit) 16 4096)
      [Call.allocate 10, Call.allocate 52, Call.free 4096])).length = 2 + (16 + 7) / 8 :=
  (C12_bitmap_bits (run (initialise (construct 4 bestFit) 16 4096)
    [Call.allocate 10, Call.allocate 52, Call.free 4096]) (by decide) (by decide)).1

/-- C13, counterexample. After `initialize(65536)` the only block is free with
size 65536; `getList` returns the count 1, start 0 and size 0: the size entry is
not the size of the block. -/
theorem C13_size_entry_truncated :
    (initialise (construct 1 bestFit) 65536 4096).blocksHead = [⟨0, 65536, true⟩] ∧
    getList (initialise (construct 1 bestFit) 65536 4096) = some [1, 0, 0] := by
  decide

/-- C13, amended. `getList`: for every block list the result is null exactly when
the list has no free block; otherwise it is the number of free blocks followed by
the start and size of each free block, in address order, every number stored as
a `uint16_t`, that is modulo 65536; when the count and all starts and sizes of
the free blocks are below 65536 the entries are the count, starts and sizes
themselves. -/
theorem C13_getList_entries (m : MemoryManager) :
    (getList m = none ↔ ∀ b ∈ m.blocksHead, b.isFree = false) ∧
    (∀ list, getList m = some list →
      list = (m.blocksHead.filter (fun b => b.isFree)).length % 65536 ::
        (m.blocksHead.filter (fun b => b.isFree)).flatMap
          (fun b => [b.start % 65536, b.size % 65536])) ∧
    ((∃ b ∈ m.blocksHead, b.isFree = true) →
      (m.blocksHead.filter (fun b => b.isFree)).length < 65536 →
      (∀ b ∈ m.blocksHead.filter (fun b => b.isFree), b.start < 65536 ∧ b.size < 65536) →
      getList m = some (encodeHoles
        ((m.blocksHead.filter (fun b => b.isFree)).map (fun b => (b.start, b.size))))) := by
  have hcount := countHoles_eq_length m.blocksHead
  have hent := holeEntries_eq_flatMap m.blocksHead
  refine ⟨?_, ?_, ?_⟩
  · unfold getList
    dsimp only
    rw [hcount]
    split_ifs with h0
    · simp only [true_iff]
      intro b hb
      have h1 : m.blocksHead.filter (fun b => b.isFree) = [] := List.length_eq_zero.mp h0
      have h2 : b ∉ m.blocksHead.filter (fun b => b.isFree) := by
        rw [h1]
        simp
      by_contra hfree
      exact h2 (List.mem_filter.mpr ⟨hb, by simpa using hfree⟩)
    · simp only [false_iff, reduceCtorEq]
      intro hall
      apply h0
      apply List.length_eq_zero.mpr
      apply List.filter_eq_nil_iff.mpr
      intro b hb
      simp [hall b hb]
  · intro list hl
    rw [getList_some m list hl, hcount, hent]
    rfl
  · rintro ⟨b, hb, hfree⟩ hlen hsmall
    have hne : countHoles m.blocksHead ≠ 0 := by
      rw [hcount]
      intro h0
      have h1 : m.blocksHead.filter (fun b => b.isFree) = [] := List.length_eq_zero.mp h0
      have h2 : b ∈ m.blocksHead.filter (fun b => b.isFree) :=
        List.mem_filter.mpr ⟨hb, by simpa using hfree⟩
      rw [h1] at h2
      simp at h2
    unfold getList
    dsimp only
    rw [if_neg hne, hcount, hent, entries_exact _ hsmall]
    unfold encodeHoles toUInt16 u16Mod
    rw [Nat.mod_eq_of_lt hlen, List.length_map]

/-- C13, instance: 16 words with the free block `(0, 3)` and the allocated block
`(3, 13)`. -/
theorem C13_getList_entries_witness :
    getList (run (initialise (construct 4 bestFit) 16 4096)
      [Call.allocate 10, Call.allocate 52, Call.free 4096]) =
      some (encodeHoles [(0, 3)]) :=
  (C13_getList_entries (run (initialise (construct 4 bestFit) 16 4096)
    [Call.allocate 10, Call.allocate 52, Call.free 4096])).2.2
    ⟨⟨0, 3, true⟩, by decide, rfl⟩ (by decide) (by decide)

/-- C14, failing input. For `sizeInBytes = 2^64 - 1` and `wordSize = 2` the
expression of line 60, evaluated in `size_t`, is 0: the sum wraps to 0 before the
division.  The ceiling of `sizeInBytes / wordSize` is `2^63`, and the result is
not at least 1.  For the request of 10 bytes with word size 4 it is 3. -/
theorem C14_round_up_wraps :
    requiredWordsOf 2 18446744073709551615 = 0 ∧
    (18446744073709551615 + 2 - 1) / 2 = 9223372036854775808 ∧
    add64 18446744073709551615 2 = 1 ∧
    requiredWordsOf 4 10 = 3 := by
  decide

/-- C15, failing input. `initialize(16)` with word size 2, then
`allocate(2^64 - 1)`: the split creates an allocated block of 0 words, with
either built-in strategy. -/
theorem C15_empty_block_created :
    (run (initialise (construct 2 bestFit) 16 4096)
      [Call.allocate 18446744073709551615]).blocksHead = [⟨0, 0, false⟩, ⟨0, 16, true⟩] ∧
    (run (initialise (construct 2 worstFit) 16 4096)
      [Call.allocate 18446744073709551615]).blocksHead = [⟨0, 0, false⟩, ⟨0, 16, true⟩] ∧
    (⟨0, 0, false⟩ : MemoryBlock).size = 0 := by
  decide

/-- C16. `dumpMemoryMap`, when the file opens, returns 0 and writes exactly the
free blocks of the block list in address order, each rendered as `[start, size]`
with start and size in decimal, consecutive free blocks separated by ` - `,
allocated blocks left out, with no separator in front or behind and no newline
at the end; it writes nothing when there is no free block. -/
theorem C16_dump_text (m : MemoryManager) (b : MemoryBlock) :
    (dumpMemoryMap m true).1 = 0 ∧
    (dumpMemoryMap m true).2 =
      List.intercalate " - ".toList
        ((m.blocksHead.filter (fun b => b.isFree)).map renderBlock) ∧
    ((∀ x ∈ m.blocksHead, x.isFree = false) → (dumpMemoryMap m true).2 = []) ∧
    renderBlock b = ("[" ++ toString b.start ++ ", " ++ toString b.size ++ "]").toList ∧
    renderBlock ⟨3, 13, true⟩ = "[3, 13]".toList ∧
    (dumpMemoryMap (run (initialise (construct 1 bestFit) 3 4096)
      [Call.allocate 1, Call.allocate 1, Call.allocate 1,
       Call.free 4096, Call.free 4098]) true).2 = "[0, 1] - [2, 1]".toList := by
  have h : (dumpMemoryMap m true).2 =
      List.intercalate " - ".toList
        ((m.blocksHead.filter (fun b => b.isFree)).map renderBlock) := by
    simp only [dumpMemoryMap, Bool.not_true, Bool.false_eq_true, if_false]
    exact dumpLoop_first m.blocksHead
  refine ⟨by simp [dumpMemoryMap], h, ?_, ?_, by decide, by decide⟩
  · intro hall
    rw [h]
    have : m.blocksHead.filter (fun b => b.isFree) = [] := by
      apply List.filter_eq_nil_iff.mpr
      intro x hx
      simp [hall x hx]
    rw [this]
    rfl
  · simp only [renderBlock, String.toList, String.data_append]
    rfl

/-- C17. `shutdown` is idempotent: for every manager state, `shutdown` gives the
uninitialised state (null arena, `sizeInWords_` 0, empty block list, word size
and strategy kept), and a second `shutdown` changes nothing. -/
theorem C17_shutdown_idempotent (m : MemoryManager) :
    (shutdown m).memoryStart_ = 0 ∧ (shutdown m).sizeInWords_ = 0 ∧
    (shutdown m).blocksHead = [] ∧ (shutdown m).wordSize_ = m.wordSize_ ∧
    (shutdown m).allocator_ = m.allocator_ ∧
    shutdown (shutdown m) = shutdown m :=
  ⟨rfl, rfl, rfl, rfl, rfl, rfl⟩

/-- C18, failing input. The user strategy `startAtTwo` on a fresh arena of 16
words of 4 bytes, for a request of 12 bytes (3 words): start word 2 lies in the
free block `(0, 16)`, and `2 + 3` is at most 16.  `allocate` returns the address
of word 2, `base + 8`, but marks words 0 to 2 allocated: words 0 and 1, in front
of the start word, do not remain free, and words 3 and 4 of the returned range
are free.  A following `allocate(8)` with best fit is given words 3 and 4: it
returns `base + 12`, inside the byte range `base + 8` to `base + 20` returned
before. -/
theorem C18_interior_start_carves_low_end :
    requiredWordsOf 4 12 = 3 ∧
    (allocate (initialise (construct 4 startAtTwo) 16 4096) 12).1 = 4096 + 2 * 4 ∧
    (allocate (initialise (construct 4 startAtTwo) 16 4096) 12).2.blocksHead =
      [⟨0, 3, false⟩, ⟨3, 13, true⟩] ∧
    allocatedAt (allocate (initialise (construct 4 startAtTwo) 16 4096) 12).2.blocksHead 0 =
      true ∧
    allocatedAt (allocate (initialise (construct 4 startAtTwo) 16 4096) 12).2.blocksHead 1 =
      true ∧
    allocatedAt (allocate (initialise (construct 4 startAtTwo) 16 4096) 12).2.blocksHead 3 =
      false ∧
    allocatedAt (allocate (initialise (construct 4 startAtTwo) 16 4096) 12).2.blocksHead 4 =
      false ∧
    (allocate (setAllocator (allocate (initialise (construct 4 startAtTwo) 16 4096) 12).2
      bestFit) 8).1 = 4096 + 3 * 4 ∧
    (allocate (setAllocator (allocate (initialise (construct 4 startAtTwo) 16 4096) 12).2
      bestFit) 8).2.blocksHead = [⟨0, 3, false⟩, ⟨3, 2, false⟩, ⟨5, 11, true⟩] := by
  decide

/-- C19, failing input. Word size 1, 16 words, and a request of `2^32 + 1`
bytes: `2^32 + 1` words are required, the conversion to the `int` parameter of
the strategy leaves 1, both built-in strategies answer start word 0, and the loop
of `allocate` finds no free block holding `2^32 + 1` words: the fall-back path is
reached. -/
theorem C19_fallback_reached :
    requiredWordsOf 1 4294967297 = 4294967297 ∧
    toInt (requiredWordsOf 1 4294967297) = 1 ∧
    getList (initialise (construct 1 bestFit) 16 4096) = some [1, 0, 16] ∧
    bestFit 1 [1, 0, 16] = 0 ∧ worstFit 1 [1, 0, 16] = 0 ∧
    carve 0 4294967297 [⟨0, 16, true⟩] = none ∧
    fallbackReached (initialise (construct 1 bestFit) 16 4096) 4294967297 = true ∧
    fallbackReached (initialise (construct 1 worstFit) 16 4096) 4294967297 = true := by
  decide

/-- C20, failing inputs. (a) Word size 131072, 40000 words: after
`allocate(4294967296)` has taken words 0 to 32767 and returned the arena base,
`allocate(1)` succeeds and returns the arena base again: its byte lies in word 0,
which was allocated before the call.  (b) Word size 2, 16 words (an arena of 32
bytes): `allocate(2^64 - 1)` succeeds and returns the arena base, so the byte
range of the request ends far beyond the arena, and no word is allocated by the
call. -/
theorem C20_returned_range_unsafe :
    (allocate (initialise (construct 131072 bestFit) 40000 4096) 4294967296).1 = 4096 ∧
    allocatedAt (allocate (initialise (construct 131072 bestFit) 40000 4096)
      4294967296).2.blocksHead 0 = true ∧
    (allocate (allocate (initialise (construct 131072 bestFit) 40000 4096) 4294967296).2 1).1 =
      4096 ∧
    (allocate (initialise (construct 2 bestFit) 16 4096) 18446744073709551615).1 = 4096 ∧
    4096 + 16 * 2 < 4096 + 18446744073709551615 ∧
    allocatedAt (allocate (initialise (construct 2 bestFit) 16 4096)
      18446744073709551615).2.blocksHead 0 = false := by
  decide

end MemMgr
